import Mathlib

/-!
Verification of the raster painting core of the Concept-Studio repository.

The development shallowly embeds the Python source that the claims refer to:

* `src/concept_studio/logic/tools/bucket.py`  (colour matching, scanline flood fill)
* `src/drawing_engine.py` / `src/Gesso/drawing_engine.py`
  (`max_reach`, `draw_line` stamp spacing loop)
* `src/concept_studio/logic/layer.py`         (`Layer.__init__`)
* `src/concept_studio/logic/history.py`       (`HistoryManager`)
* `src/Gesso/history.py`                      (bounded history, for comparison)
* `src/concept_studio/ui/canvas.py`           (`commit_transform`)

Machine integers are modelled as `ℕ`/`ℤ`, real-valued brush math over a
general linear ordered field (instantiated at `ℚ` for concrete evaluation and
at `ℝ` for the geometric statements), pixel buffers as functions from
coordinates to ARGB integers.
-/

namespace ConceptStudio

/-! ## Python helpers

`int()` truncation, and Python list indexing (negative indices count from the
end; out-of-range access is modelled as returning the supplied default /
leaving the list unchanged — all theorems below stay inside the valid range).
-/

/-- Python `int(q)` for a rational/real value: truncation toward zero. -/
def pyInt (q : ℚ) : ℤ :=
  if 0 ≤ q then ⌊q⌋ else ⌈q⌉

/-- Python `xs[i]` with negative-index wrapping; `d` is returned for an
index that would raise `IndexError`. -/
def pyGetD {α : Type} (xs : List α) (i : ℤ) (d : α) : α :=
  let j := if i < 0 then i + xs.length else i
  if h : 0 ≤ j ∧ j < xs.length then xs.get ⟨j.toNat, by omega⟩ else d

/-- Python `xs[i] = v` with negative-index wrapping (out-of-range is a
no-op in the model; the code would raise). -/
def pySet {α : Type} (xs : List α) (i : ℤ) (v : α) : List α :=
  let j := if i < 0 then i + xs.length else i
  if 0 ≤ j then xs.set j.toNat v else xs

/-- Python `del xs[i]` with negative-index wrapping. -/
def pyDel {α : Type} (xs : List α) (i : ℤ) : List α :=
  let j := if i < 0 then i + xs.length else i
  if 0 ≤ j then xs.eraseIdx j.toNat else xs

/-! ## Colour model (bucket.py)

Colours are Qt `QRgb` values: 32-bit `0xAARRGGBB` integers, modelled as `ℕ`.
-/

/-- `qRed` of an ARGB32 integer. -/
def qRed (c : ℕ) : ℕ := c / 65536 % 256

/-- `qGreen` of an ARGB32 integer. -/
def qGreen (c : ℕ) : ℕ := c / 256 % 256

/-- `qBlue` of an ARGB32 integer. -/
def qBlue (c : ℕ) : ℕ := c % 256

/-- `qAlpha` of an ARGB32 integer. -/
def qAlpha (c : ℕ) : ℕ := c / 16777216 % 256

/-- `BucketTool.colors_match` (bucket.py lines 22–38): exact integer equality
when the tolerance is zero, otherwise the summed absolute RGB difference is
compared against `tolerance * 3` (the alpha byte does not enter the sum). -/
def colorsMatch (tolerance : ℕ) (c1 c2 : ℕ) : Bool :=
  if tolerance = 0 then
    c1 == c2
  else
    decide ((((qRed c1 : ℤ) - qRed c2).natAbs +
             ((qGreen c1 : ℤ) - qGreen c2).natAbs +
             ((qBlue c1 : ℤ) - qBlue c2).natAbs) ≤ tolerance * 3)

/-! ## `DrawingEngine.max_reach` (drawing_engine.py lines 38–43)

`brush_size` is an integer in the application; `jitter_scatter` is a slider
value in `[0, 1]`.  The code is
`int(self.brush_size + self.brush_size * 2.0 * self.jitter_scatter + 20)`.
The identical definition appears in `src/Gesso/drawing_engine.py` lines 36–41.
-/

/-- `DrawingEngine.max_reach`. -/
def maxReach (size : ℤ) (jitterScatter : ℚ) : ℤ :=
  pyInt ((size : ℚ) + (size : ℚ) * 2 * jitterScatter + 20)

/-! ## `Layer.__init__` (concept_studio/logic/layer.py lines 19–45)

The constructor sets name/visible/opacity/blend mode, the five transform
attributes, and a fully transparent ARGB image.  It sets **no** `is_floating`
attribute; that attribute is attached dynamically (e.g. by
`Canvas.lift_selection_to_layer`, canvas.py line 366) and read elsewhere with
`getattr(layer, "is_floating", False)` (project.py line 40).  A possibly
absent Python attribute is modelled as an `Option Bool`, `none` meaning the
attribute was never assigned.
-/

/-- In-memory pixel image: width, height and a pixel map to ARGB integers. -/
structure PixImage where
  width : ℕ
  height : ℕ
  pix : ℕ × ℕ → ℕ

/-- A drawing layer; `Img` is the image payload type. -/
structure Layer (Img : Type) where
  name : String
  visible : Bool
  opacity : ℚ
  blend_mode : String
  x : ℚ
  y : ℚ
  scale_x : ℚ
  scale_y : ℚ
  rotation : ℚ
  image : Img
  is_floating : Option Bool

/-- `Layer.__init__(name, width, height)`: the exact attribute values the
constructor assigns; the image is filled transparent (all-zero ARGB). -/
def layerInit (name : String) (width height : ℕ) : Layer PixImage :=
  { name := name
    visible := true
    opacity := 1
    blend_mode := "Normal"
    x := 0
    y := 0
    scale_x := 1
    scale_y := 1
    rotation := 0
    image := { width := width, height := height, pix := fun _ => 0 }
    is_floating := none }

/-! ## `HistoryManager` (concept_studio/logic/history.py)

Snapshot-based undo/redo.  The stacks are `deque(maxlen=limit)`: appending to
a full deque silently evicts the oldest (leftmost) entry.  Layer images are
deep copies, so an image is modelled as a pure value of an arbitrary type;
"restore" (`QPainter` in `CompositionMode_Source` drawing a same-sized
snapshot at the origin) replaces the layer's image with the stored value.
Stack entries record the Python `int` layer index (`ℤ`).
-/

/-- `deque(maxlen=limit).append x`: drop from the left on overflow. -/
def dequeAppend {β : Type} (limit : ℕ) (xs : List β) (x : β) : List β :=
  if xs.length < limit then xs ++ [x]
  else (xs ++ [x]).drop (xs.length + 1 - limit)

/-- State of `HistoryManager`; `α` is the image snapshot type. -/
structure HistoryManager (α : Type) where
  limit : ℕ
  undo_stack : List (ℤ × α)
  redo_stack : List (ℤ × α)

/-- `HistoryManager.__init__(limit)`. -/
def historyInit (α : Type) (limit : ℕ) : HistoryManager α :=
  { limit := limit, undo_stack := [], redo_stack := [] }

/-- `HistoryManager.save_state(layer_index, image)` (history.py lines 30–34):
append a snapshot of the image and clear the redo stack. -/
def HistoryManager.save_state {α : Type} (h : HistoryManager α)
    (layer_index : ℤ) (image : α) : HistoryManager α :=
  { h with
    undo_stack := dequeAppend h.limit h.undo_stack (layer_index, image)
    redo_stack := [] }

/-- `HistoryManager.undo(layers)` (history.py lines 36–65): pop the newest
undo entry; if its index is below `len(layers)`, save the current image of
that layer to the redo stack, restore the popped snapshot, and return the
index; otherwise do nothing further and return `None`. -/
def HistoryManager.undo {α : Type} (h : HistoryManager α) (layers : List α) :
    HistoryManager α × List α × Option ℤ :=
  match h.undo_stack.getLast? with
  | none => (h, layers, none)
  | some (i, old) =>
    let rest := h.undo_stack.dropLast
    if i < (layers.length : ℤ) then
      let cur := pyGetD layers i old
      ({ h with undo_stack := rest
                redo_stack := dequeAppend h.limit h.redo_stack (i, cur) },
       pySet layers i old, some i)
    else
      ({ h with undo_stack := rest }, layers, none)

/-- `HistoryManager.redo(layers)` (history.py lines 67–96): the mirror of
`undo`, replaying the popped redo snapshot. -/
def HistoryManager.redo {α : Type} (h : HistoryManager α) (layers : List α) :
    HistoryManager α × List α × Option ℤ :=
  match h.redo_stack.getLast? with
  | none => (h, layers, none)
  | some (i, new) =>
    let rest := h.redo_stack.dropLast
    if i < (layers.length : ℤ) then
      let cur := pyGetD layers i new
      ({ h with redo_stack := rest
                undo_stack := dequeAppend h.limit h.undo_stack (i, cur) },
       pySet layers i new, some i)
    else
      ({ h with redo_stack := rest }, layers, none)

/-- Push a whole list of snapshots through `save_state` in order. -/
def pushAll {α : Type} (h : HistoryManager α) (ps : List (ℤ × α)) :
    HistoryManager α :=
  ps.foldl (fun h p => h.save_state p.1 p.2) h

/-! ## `Canvas.commit_transform` (concept_studio/ui/canvas.py lines 443–479)

The method:

* returns unchanged when the active index is not a valid `0 ≤ i < len(layers)`;
* returns unchanged when `layer.x == 0 and layer.y == 0 and
  layer.rotation == 0 and layer.scale_x == 1` (note: `scale_y` is not
  consulted);
* otherwise it **always merges down**: it saves history for index
  `active_layer_index - 1`, renders the active layer through its transform
  matrix onto `layers[active_layer_index - 1]` (Python indexing), deletes the
  active layer, and decrements the active index.  `is_floating` is never
  consulted here.

The `QPainter` rendering of the active layer through its matrix onto the
target image is abstracted as a `merge` function taking the whole active
layer (which carries the transform fields) and the target image.
-/

/-- The mutable canvas state that `commit_transform` touches. -/
structure Canvas (Img : Type) where
  layers : List (Layer Img)
  active_layer_index : ℤ
  history : HistoryManager Img

/-- `Canvas.commit_transform`, parameterized by the painter's
render-through-transform operation `merge`. -/
def commitTransform {Img : Type} (merge : Layer Img → Img → Img)
    (c : Canvas Img) : Canvas Img :=
  if h : 0 ≤ c.active_layer_index ∧ c.active_layer_index < c.layers.length then
    let layer := c.layers.get ⟨c.active_layer_index.toNat, by omega⟩
    if layer.x = 0 ∧ layer.y = 0 ∧ layer.rotation = 0 ∧ layer.scale_x = 1 then
      c
    else
      let ti : ℤ := c.active_layer_index - 1
      let target := pyGetD c.layers ti layer
      let history' := c.history.save_state ti target.image
      let target' := { target with image := merge layer target.image }
      let layers' := pySet c.layers ti target'
      { layers := pyDel layers' c.active_layer_index
        active_layer_index := c.active_layer_index - 1
        history := history' }
  else c

/-! ## `DrawingEngine.draw_line` (drawing_engine.py lines 113–162)

The stamp-placement math of `draw_line`, over an arbitrary linear ordered
field `K` (instantiated at `ℚ` for computation, `ℝ` for geometry; the Python
floats are ideal reals in this model).  The code:

```
spacing = max(1.0, self.brush_size * self.brush_spacing_factor)
if segment_length < 0.001:
    self.draw_stamp(painter, end, p_end, is_eraser)
else:
    traveled = 0.0
    while (traveled + self.dist_to_next_dot) <= segment_length:
        traveled += self.dist_to_next_dot
        t = traveled / segment_length
        point = start + (end - start) * t
        pressure = p_start + (p_end - p_start) * t
        self.draw_stamp(painter, point, pressure, is_eraser)
        self.dist_to_next_dot = spacing
    self.dist_to_next_dot -= (segment_length - traveled)
```

Only the first loop iteration can consume a carry `dist_to_next_dot ≠ spacing`;
every later iteration adds exactly `spacing`.  The loop is therefore embedded
as one unrolled first iteration (`dotLoop`) followed by the uniform loop
(`spacedDots`).  `segment_length` (a square root, hence irrational in
general) is passed to the embedding as an explicit argument; the `ℝ`-level
wrapper `drawSegmentR` computes it from the endpoints exactly as the code
does.
-/

variable {K : Type} [LinearOrderedField K] [FloorRing K]

/-- The uniform part of the `while` loop: from accumulated distance `t`,
keep stamping every `spacing` while the next stop is within `L`.
Returns the stamp distances and the final `traveled`. -/
def spacedDots [FloorRing K] (spacing L : K) (hsp : 1 ≤ spacing) (t : K) :
    List K × K :=
  if _h : t + spacing ≤ L then
    let r := spacedDots spacing L hsp (t + spacing)
    ((t + spacing) :: r.1, r.2)
  else ([], t)
termination_by (⌈L - t⌉).toNat
decreasing_by
  have h3 : ⌈L - (t + spacing)⌉ ≤ ⌈L - t⌉ - 1 := by
    have hle : L - (t + spacing) ≤ (L - t) - ((1 : ℤ) : K) := by push_cast; linarith
    calc ⌈L - (t + spacing)⌉ ≤ ⌈(L - t) - ((1 : ℤ) : K)⌉ := Int.ceil_mono hle
      _ = ⌈L - t⌉ - 1 := Int.ceil_sub_int _ _
  have h4 : 0 < ⌈L - t⌉ := by
    rw [Int.lt_ceil]; push_cast; linarith
  omega

/-- The whole `while` loop: the first iteration consumes the carried-in
distance `d`, afterwards the step is `spacing`.  Returns the stamp
distances, the final `traveled` and the final in-loop `dist_to_next_dot`. -/
def dotLoop (spacing L : K) (hsp : 1 ≤ spacing) (traveled d : K) :
    List K × K × K :=
  if traveled + d ≤ L then
    let r := spacedDots spacing L hsp (traveled + d)
    ((traveled + d) :: r.1, r.2, spacing)
  else ([], traveled, d)

/-- One brush stamp: position and interpolated pressure. -/
structure Stamp (K : Type) where
  pos : K × K
  pressure : K
deriving DecidableEq

/-- `DrawingEngine.draw_line` restricted to its stamp-placement output:
given the brush configuration, segment endpoints and pressures, the segment
length `L`, and the carried `dist_to_next_dot`, return the list of stamps
and the new carry. -/
def drawSegment (size spacingFactor : K) (s e : K × K) (pS pE : K)
    (L d0 : K) : List (Stamp K) × K :=
  let spacing := max 1 (size * spacingFactor)
  if L < 1 / 1000 then
    ([{ pos := e, pressure := pE }], d0)
  else
    let r := dotLoop spacing L (le_max_left _ _) 0 d0
    (r.1.map fun tr =>
      let t := tr / L
      { pos := (s.1 + (e.1 - s.1) * t, s.2 + (e.2 - s.2) * t)
        pressure := pS + (pE - pS) * t },
     r.2.2 - (L - r.2.1))

/-- `draw_line` over `ℝ`, computing the Euclidean segment length exactly as
the code does (`math.sqrt(dist_x**2 + dist_y**2)`). -/
noncomputable def drawSegmentR (size spacingFactor : ℝ) (s e : ℝ × ℝ)
    (pS pE d0 : ℝ) : List (Stamp ℝ) × ℝ :=
  drawSegment size spacingFactor s e pS pE
    (Real.sqrt ((e.1 - s.1) ^ 2 + (e.2 - s.2) ^ 2)) d0

/-- The point at path-distance `c` along the segment `s → e` of length `L`. -/
def segPoint (s e : K × K) (L c : K) : K × K :=
  (s.1 + (e.1 - s.1) * (c / L), s.2 + (e.2 - s.2) * (c / L))

/-- The linearly interpolated pressure at path-distance `c`. -/
def segPressure (pS pE L c : K) : K := pS + (pE - pS) * (c / L)

/-- Drawing the segment `s → e` as `N+1` consecutive `draw_line` calls, cut
at the path distances in `cuts` (measured from `s`), threading the carried
`dist_to_next_dot` across the calls exactly as the engine state does. -/
def drawSplit (size spacingFactor : K) (s e : K × K) (pS pE : K)
    (L d0 : K) : List K → List (Stamp K) × K
  | [] => drawSegment size spacingFactor s e pS pE L d0
  | c :: cs =>
    let m := segPoint s e L c
    let pm := segPressure pS pE L c
    let r1 := drawSegment size spacingFactor s m pS pm c d0
    let r2 := drawSplit size spacingFactor m e pm pE (L - c) r1.2
      (cs.map (· - c))
    (r1.1 ++ r2.1, r2.2)
termination_by cuts => cuts.length
decreasing_by simp

/-! ## `BucketTool.flood_fill` (concept_studio/logic/tools/bucket.py lines 40–120)

Scanline flood fill with tolerance.  The pixel buffer is a total map
`Pos → ℕ` read through width/height bounds; painting the span row with the
opaque fill colour sets those pixels to `fillColor`.  The Python work list
(`stack.append` / `stack.pop()`) is LIFO; it is modelled with cons/head,
which has the same last-in-first-out behaviour.  The loop is embedded with
explicit fuel `1 + (2*w+2)*(w*h)`; the measure argument proved below
(`fillLoopFuel_stack_empty`) shows this fuel strictly dominates the number
of iterations, so the cap never bites and the embedding agrees with the
unbounded `while stack:` loop.
-/

/-- Pixel coordinates. -/
abbrev Pos := ℕ × ℕ

/-- The left scan: `while left_x > 0 and colors_match(pixel(left_x-1, cy)):
left_x -= 1`.  `scanLeft pix tol target cy x` is the final `left_x` when the
scan starts at `x`. -/
def scanLeft (pix : Pos → ℕ) (tol target cy : ℕ) : ℕ → ℕ
  | 0 => 0
  | x + 1 =>
    if colorsMatch tol (pix (x, cy)) target then scanLeft pix tol target cy x
    else x + 1

/-- The right scan: `while right_x < w - 1 and
colors_match(pixel(right_x+1, cy)): right_x += 1`. -/
def scanRight (pix : Pos → ℕ) (tol target w cy : ℕ) (x : ℕ) : ℕ :=
  if _h : x < w - 1 then
    if colorsMatch tol (pix (x + 1, cy)) target then
      scanRight pix tol target w cy (x + 1)
    else x
  else x
termination_by w - 1 - x
decreasing_by omega

/-- Mutable state of the scanline loop. -/
structure FillState where
  pix : Pos → ℕ
  visited : Finset Pos
  stack : List Pos

/-- One iteration of the `for i in range(left_x, right_x + 1)` body: mark
the span pixel visited, then push the up/down neighbours that currently
match and are not visited. -/
def spanStep (pix : Pos → ℕ) (tol target h cy : ℕ)
    (acc : Finset Pos × List Pos) (i : ℕ) : Finset Pos × List Pos :=
  let v := insert (i, cy) acc.1
  let st1 :=
    if 0 < cy ∧ colorsMatch tol (pix (i, cy - 1)) target = true ∧
        (i, cy - 1) ∉ v then
      (i, cy - 1) :: acc.2
    else acc.2
  let st2 :=
    if cy < h - 1 ∧ colorsMatch tol (pix (i, cy + 1)) target = true ∧
        (i, cy + 1) ∉ v then
      (i, cy + 1) :: st1
    else st1
  (v, st2)

/-- The whole `for i in range(left_x, right_x + 1)` loop.  `pix` here is
the buffer *after* the span row was painted (the code paints the row before
this loop; the inspected pixels are off-row, so they are unaffected by that
paint). -/
def spanFold (pix : Pos → ℕ) (tol target h cy : ℕ) (span : List ℕ)
    (acc : Finset Pos × List Pos) : Finset Pos × List Pos :=
  span.foldl (spanStep pix tol target h cy) acc

/-- One iteration of `while stack:`: pop `p`; skip it if visited, out of
bounds, or not matching; otherwise scan the span, paint it, and run the
neighbour loop. -/
def fillStep (tol target fill w h : ℕ) (p : Pos) (rest : List Pos)
    (s : FillState) : FillState :=
  if p ∈ s.visited then { s with stack := rest }
  else if ¬ (p.1 < w ∧ p.2 < h) then { s with stack := rest }
  else if ¬ colorsMatch tol (s.pix p) target then { s with stack := rest }
  else
    let l := scanLeft s.pix tol target p.2 p.1
    let r := scanRight s.pix tol target w p.2 p.1
    let pix' := fun q : Pos =>
      if q.2 = p.2 ∧ l ≤ q.1 ∧ q.1 ≤ r then fill else s.pix q
    let span := List.range' l (r + 1 - l)
    let vs := spanFold pix' tol target h p.2 span (s.visited, rest)
    { pix := pix', visited := vs.1, stack := vs.2 }

/-- The `while stack:` loop, with explicit fuel. -/
def fillLoopFuel (tol target fill w h : ℕ) : ℕ → FillState → FillState
  | 0, s => s
  | fuel + 1, s =>
    match s.stack with
    | [] => s
    | p :: rest =>
      fillLoopFuel tol target fill w h fuel (fillStep tol target fill w h p rest s)

/-- `BucketTool.flood_fill(start_point, layer)`: bounds check, early return
when the seed pixel already equals the fill colour, the (always-true)
self-match check, then the scanline loop. -/
def floodFill (pix : Pos → ℕ) (w h : ℕ) (seed : Pos) (fillColor tol : ℕ) :
    Pos → ℕ :=
  if ¬ (seed.1 < w ∧ seed.2 < h) then pix
  else
    let target := pix seed
    if target = fillColor then pix
    else if ¬ colorsMatch tol target target then pix
    else
      (fillLoopFuel tol target fillColor w h (1 + (2 * w + 2) * (w * h))
        { pix := pix, visited := ∅, stack := [seed] }).pix

/-! ### Derived notions used to state the claims -/

/-- In-bounds predicate for a `w × h` buffer. -/
def inBounds (w h : ℕ) (p : Pos) : Prop := p.1 < w ∧ p.2 < h

/-- 4-adjacency of pixel coordinates. -/
def adjacent (p q : Pos) : Prop :=
  (p.1 = q.1 ∧ (p.2 = q.2 + 1 ∨ q.2 = p.2 + 1)) ∨
  (p.2 = q.2 ∧ (p.1 = q.1 + 1 ∨ q.1 = p.1 + 1))

/-- `p` is 4-connected to the seed through in-bounds pixels holding the
original seed colour (the seed itself included). -/
def ConnectedToSeed (pix : Pos → ℕ) (w h : ℕ) (seed p : Pos) : Prop :=
  Relation.ReflTransGen
    (fun a b => adjacent a b ∧ inBounds w h b ∧ pix b = pix seed) seed p ∧
  inBounds w h p ∧ pix p = pix seed

/-- All pixels of the `w × h` buffer, as a finite set. -/
def grid (w h : ℕ) : Finset Pos := Finset.range w ×ˢ Finset.range h

/-- Termination measure of the scanline loop: every iteration strictly
decreases it (skips shrink the stack; a filled span marks at least the
popped pixel visited, outweighing the at most `2*w` new stack entries). -/
def fillMeasure (w h : ℕ) (s : FillState) : ℕ :=
  s.stack.length + (2 * w + 2) * (grid w h \ s.visited).card

/-- Closed form of the spacing loop's stamp distances (derived below from
`dotLoop`, not part of the embedding): starting with carry `d`, stamps fall
at `d, d + spacing, d + 2*spacing, …` while within `L`. -/
def stampTimes [FloorRing K] (spacing L d : K) : List K :=
  if d ≤ L then
    (List.range ((⌊(L - d) / spacing⌋).toNat + 1)).map fun k : ℕ => d + (k : K) * spacing
  else []

/-- Closed form of the carry (`dist_to_next_dot`) left after one
`draw_line` call of length `L` entered with carry `d` (derived below). -/
def carryOut [FloorRing K] (spacing L d : K) : K :=
  if d ≤ L then
    spacing - (L - (d + ((⌊(L - d) / spacing⌋).toNat : K) * spacing))
  else d - L

/-- Loop invariant of the scanline flood fill (for exact matching,
`tolerance = 0`, and a fill colour different from the seed colour):
visited pixels are exactly the already-filled ones, they all lie in the
seed's 4-connected component of the original seed colour, unvisited pixels
are untouched, stack entries are the seed or neighbours of visited pixels,
every matching neighbour of a visited pixel is visited or queued, and the
seed itself is visited or queued. -/
def FillInv (orig : Pos → ℕ) (w h : ℕ) (seed : Pos) (fill : ℕ)
    (s : FillState) : Prop :=
  (∀ p ∈ s.visited, inBounds w h p ∧ orig p = orig seed ∧
    Relation.ReflTransGen
      (fun a b => adjacent a b ∧ inBounds w h b ∧ orig b = orig seed)
      seed p) ∧
  (∀ p, p ∉ s.visited → s.pix p = orig p) ∧
  (∀ p ∈ s.visited, s.pix p = fill) ∧
  (∀ p ∈ s.stack, p = seed ∨ ∃ q ∈ s.visited, adjacent q p) ∧
  (∀ p ∈ s.visited, ∀ q, adjacent p q → inBounds w h q →
    orig q = orig seed → q ∈ s.visited ∨ q ∈ s.stack) ∧
  (seed ∈ s.visited ∨ seed ∈ s.stack)

/-! # Theorems -/

/-! ## C7 — `max_reach` -/

/-- C7 counterexample: the claim says `maxReach` *equals*
`size + size*2*jitterScatter + fixedMargin`; at `size = 1`,
`jitterScatter = 3/10` the formula gives `21.6` but the code's `int(...)`
truncation yields `21`. -/
theorem C7_counterexample :
    ¬ ((maxReach 1 (3 / 10) : ℚ) = (1 : ℚ) + 1 * 2 * (3 / 10) + 20) := by
  have h1 : maxReach 1 (3 / 10) = 21 := by
    unfold maxReach pyInt
    rw [if_pos (by norm_num)]
    rw [show ((1 : ℤ) : ℚ) + ((1 : ℤ) : ℚ) * 2 * (3 / 10) + 20 = 108 / 5 by
      norm_num]
    rw [Int.floor_eq_iff]
    constructor <;> norm_num
  rw [h1]
  norm_num

/-- C7 (amended): for an integer brush size `≥ 0` and scatter values
`0 ≤ a ≤ b`, `maxReach` is monotone in the scatter, is at least the brush
size, and equals the *floor* (Python `int` truncation) of
`size + size*2*jitterScatter + 20`. -/
theorem C7_maxReach_spec (size : ℤ) (a b : ℚ) (hs : 0 ≤ size) (h0 : 0 ≤ a)
    (hab : a ≤ b) :
    maxReach size a ≤ maxReach size b ∧
    size ≤ maxReach size a ∧
    maxReach size a = ⌊(size : ℚ) + (size : ℚ) * 2 * a + 20⌋ := by
  have hsq : (0 : ℚ) ≤ (size : ℚ) := by exact_mod_cast hs
  have h0b : (0 : ℚ) ≤ b := le_trans h0 hab
  have hfa : (0 : ℚ) ≤ (size : ℚ) + (size : ℚ) * 2 * a + 20 := by nlinarith
  have hfb : (0 : ℚ) ≤ (size : ℚ) + (size : ℚ) * 2 * b + 20 := by nlinarith
  refine ⟨?_, ?_, ?_⟩
  · unfold maxReach pyInt
    rw [if_pos hfa, if_pos hfb]
    exact Int.floor_le_floor (by nlinarith)
  · unfold maxReach pyInt
    rw [if_pos hfa, Int.le_floor]
    nlinarith
  · unfold maxReach pyInt
    rw [if_pos hfa]

/-- Witness for `C7_maxReach_spec` at `size = 2`, `a = 0`, `b = 1`. -/
theorem C7_witness :
    (0 : ℤ) ≤ 2 ∧ (0 : ℚ) ≤ 0 ∧ (0 : ℚ) ≤ 1 ∧
    (maxReach 2 0 ≤ maxReach 2 1 ∧ (2 : ℤ) ≤ maxReach 2 0 ∧
      maxReach 2 0 = ⌊(2 : ℚ) + (2 : ℚ) * 2 * 0 + 20⌋) :=
  ⟨by decide, by decide, by decide,
    C7_maxReach_spec 2 0 1 (by decide) (by decide) (by decide)⟩

/-! ## C8 — colour match predicate -/

/-- C8 counterexample: the claim says alpha is ignored "in both cases".
At tolerance 0 the code compares the full ARGB integers: `0x00FF0000` and
`0xFFFF0000` have identical RGB but do not match. -/
theorem C8_counterexample :
    ¬ ((colorsMatch 0 16711680 4294901760 = true) ↔
        (qRed 16711680 = qRed 4294901760 ∧
         qGreen 16711680 = qGreen 4294901760 ∧
         qBlue 16711680 = qBlue 4294901760)) := by
  decide

/-- C8 (amended): at tolerance 0 the match is exact equality of the full
ARGB32 integers (alpha *included*); at positive tolerance it holds iff
`|ΔR|+|ΔG|+|ΔB| ≤ tolerance*3`, and there alpha is ignored (the predicate
is unchanged by stripping the alpha byte). -/
theorem C8_colorsMatch_spec (tol c1 c2 : ℕ) :
    (tol = 0 → (colorsMatch tol c1 c2 = true ↔ c1 = c2)) ∧
    (0 < tol → (colorsMatch tol c1 c2 = true ↔
      ((qRed c1 : ℤ) - qRed c2).natAbs + ((qGreen c1 : ℤ) - qGreen c2).natAbs +
        ((qBlue c1 : ℤ) - qBlue c2).natAbs ≤ tol * 3)) ∧
    (0 < tol → colorsMatch tol c1 c2 =
      colorsMatch tol (c1 % 16777216) (c2 % 16777216)) := by
  refine ⟨fun h0 => ?_, fun hp => ?_, fun hp => ?_⟩
  · simp [colorsMatch, h0]
  · have h0 : tol ≠ 0 := Nat.pos_iff_ne_zero.mp hp
    simp [colorsMatch, h0]
  · have h0 : tol ≠ 0 := Nat.pos_iff_ne_zero.mp hp
    have hr1 : qRed (c1 % 16777216) = qRed c1 := by unfold qRed; omega
    have hr2 : qRed (c2 % 16777216) = qRed c2 := by unfold qRed; omega
    have hg1 : qGreen (c1 % 16777216) = qGreen c1 := by unfold qGreen; omega
    have hg2 : qGreen (c2 % 16777216) = qGreen c2 := by unfold qGreen; omega
    have hb1 : qBlue (c1 % 16777216) = qBlue c1 := by unfold qBlue; omega
    have hb2 : qBlue (c2 % 16777216) = qBlue c2 := by unfold qBlue; omega
    simp [colorsMatch, h0, hr1, hr2, hg1, hg2, hb1, hb2]

/-- Witness for `C8_colorsMatch_spec` at `tol = 0`, both colours `5`. -/
theorem C8_witness :
    colorsMatch 0 5 5 = true ↔ (5 : ℕ) = 5 :=
  (C8_colorsMatch_spec 0 5 5).1 rfl

/-! ## C9 — `Layer.__init__` -/

/-- C9 counterexample: a freshly constructed layer has *no* `is_floating`
attribute (modelled as `none`), so it is not `false` as the claim states —
the attribute is only attached to lifted layers. -/
theorem C9_counterexample :
    ¬ ((layerInit "Layer 1" 4 4).is_floating = some false) := by
  decide

/-- C9 (amended): every layer produced by the constructor starts with the
identity transform `(0, 0, 0°, 1, 1)`, and its `is_floating` attribute is
*unset* (Python code reads it through `getattr(layer, "is_floating",
False)`); only lifted layers get the attribute. -/
theorem C9_layerInit_spec (name : String) (w h : ℕ) :
    (layerInit name w h).x = 0 ∧ (layerInit name w h).y = 0 ∧
    (layerInit name w h).rotation = 0 ∧ (layerInit name w h).scale_x = 1 ∧
    (layerInit name w h).scale_y = 1 ∧
    (layerInit name w h).is_floating = none :=
  ⟨rfl, rfl, rfl, rfl, rfl, rfl⟩

/-! ## C10 — `undo` with a stale layer index -/

/-- C10: if the popped undo entry's layer index is `≥ len(layers)`, the
entry is still popped, the layers and the redo stack are untouched, and
`undo` returns `None` — the history entry is silently lost. -/
theorem C10_undo_stale_index {α : Type} (h : HistoryManager α)
    (layers : List α) (ys : List (ℤ × α)) (i : ℤ) (img : α)
    (hstack : h.undo_stack = ys ++ [(i, img)])
    (hi : (layers.length : ℤ) ≤ i) :
    h.undo layers = ({ h with undo_stack := ys }, layers, none) := by
  unfold HistoryManager.undo
  rw [hstack, List.getLast?_concat, List.dropLast_concat]
  simp only
  rw [if_neg (by omega)]

/-- Witness for `C10_undo_stale_index`. -/
theorem C10_witness :
    (⟨20, [(5, 0)], []⟩ : HistoryManager ℕ).undo_stack = [] ++ [((5 : ℤ), 0)] ∧
    ((([] : List ℕ).length : ℤ) ≤ 5) ∧
    (⟨20, [(5, 0)], []⟩ : HistoryManager ℕ).undo [] =
      ({ (⟨20, [(5, 0)], []⟩ : HistoryManager ℕ) with undo_stack := [] },
        ([] : List ℕ), none) :=
  ⟨rfl, by decide, C10_undo_stale_index _ _ [] 5 0 rfl (by decide)⟩

/-! ## History helper lemmas -/

theorem dequeAppend_getLast? {β : Type} (limit : ℕ) (xs : List β) (x : β)
    (hl : 1 ≤ limit) : (dequeAppend limit xs x).getLast? = some x := by
  unfold dequeAppend
  split
  · exact List.getLast?_concat _
  · rw [List.drop_append_of_le_length (by omega)]
    exact List.getLast?_concat _

theorem pyGetD_nat {α : Type} (xs : List α) (i : ℕ) (d : α)
    (hi : i < xs.length) : pyGetD xs (i : ℤ) d = xs[i]?.getD d := by
  unfold pyGetD
  have h1 : ¬ ((i : ℤ) < 0) := by omega
  have h2 : (0 : ℤ) ≤ (i : ℤ) ∧ (i : ℤ) < xs.length := ⟨by omega, by exact_mod_cast hi⟩
  simp only [h1, if_false, dif_pos h2, Int.toNat_natCast]
  rw [List.getElem?_eq_getElem hi]
  simp [List.get_eq_getElem]

theorem pySet_nat {α : Type} (xs : List α) (i : ℕ) (v : α) :
    pySet xs (i : ℤ) v = xs.set i v := by
  unfold pySet
  have h1 : ¬ ((i : ℤ) < 0) := by omega
  simp [h1]

theorem pyDel_nat {α : Type} (xs : List α) (i : ℕ) :
    pyDel xs (i : ℤ) = xs.eraseIdx i := by
  unfold pyDel
  have h1 : ¬ ((i : ℤ) < 0) := by omega
  simp [h1]

/-! ## C1 — undo/redo round trip -/

/-- C1: with the pre-operation snapshot on top of the undo stack and the
layer currently holding the post-operation image, `undo; redo` restores the
post-operation image, and a further `undo` (i.e. `redo; undo` from the
undone state) restores the pre-operation image, byte-identically. -/
theorem C1_undo_redo_roundtrip {α : Type} (h : HistoryManager α)
    (layers : List α) (i : ℕ) (before after : α)
    (hlim : 1 ≤ h.limit)
    (htop : h.undo_stack.getLast? = some ((i : ℤ), before))
    (hi : i < layers.length)
    (hcur : layers[i]? = some after) :
    ((h.undo layers).1.redo (h.undo layers).2.1).2.1[i]? = some after ∧
    ((((h.undo layers).1.redo (h.undo layers).2.1).1.undo
        ((h.undo layers).1.redo (h.undo layers).2.1).2.1).2.1)[i]? =
      some before := by
  have hilt : (i : ℤ) < (layers.length : ℤ) := by exact_mod_cast hi
  have hu : h.undo layers =
      ({ h with undo_stack := h.undo_stack.dropLast
                redo_stack := dequeAppend h.limit h.redo_stack ((i : ℤ), after) },
        layers.set i before, some (i : ℤ)) := by
    unfold HistoryManager.undo
    rw [htop]
    simp only [if_pos hilt]
    rw [pyGetD_nat _ _ _ hi, hcur, pySet_nat]
    rfl
  set h1 : HistoryManager α :=
    { h with undo_stack := h.undo_stack.dropLast
             redo_stack := dequeAppend h.limit h.redo_stack ((i : ℤ), after) }
  have hlen1 : i < (layers.set i before).length := by simpa using hi
  have hilt1 : (i : ℤ) < ((layers.set i before).length : ℤ) := by
    exact_mod_cast hlen1
  have hr : h1.redo (layers.set i before) =
      ({ h1 with redo_stack := h1.redo_stack.dropLast
                 undo_stack := dequeAppend h1.limit h1.undo_stack ((i : ℤ), before) },
        (layers.set i before).set i after, some (i : ℤ)) := by
    unfold HistoryManager.redo
    rw [show h1.redo_stack = dequeAppend h.limit h.redo_stack ((i : ℤ), after) from rfl,
      dequeAppend_getLast? _ _ _ hlim]
    simp only [if_pos hilt1]
    rw [pyGetD_nat _ _ _ hlen1, List.getElem?_set_eq_of_lt _ hi, pySet_nat]
    rfl
  set h2 : HistoryManager α :=
    { h1 with redo_stack := h1.redo_stack.dropLast
              undo_stack := dequeAppend h1.limit h1.undo_stack ((i : ℤ), before) }
  have hlen2 : i < ((layers.set i before).set i after).length := by simpa using hi
  have hilt2 : (i : ℤ) < (((layers.set i before).set i after).length : ℤ) := by
    exact_mod_cast hlen2
  have hu2 : h2.undo ((layers.set i before).set i after) =
      ({ h2 with undo_stack := h2.undo_stack.dropLast
                 redo_stack := dequeAppend h2.limit h2.redo_stack ((i : ℤ), after) },
        ((layers.set i before).set i after).set i before, some (i : ℤ)) := by
    unfold HistoryManager.undo
    rw [show h2.undo_stack = dequeAppend h1.limit h1.undo_stack ((i : ℤ), before) from rfl,
      dequeAppend_getLast? _ _ _ hlim]
    simp only [if_pos hilt2]
    rw [pyGetD_nat _ _ _ hlen2, List.getElem?_set_eq_of_lt _ hlen1, pySet_nat]
    rfl
  rw [hu]
  simp only
  rw [hr]
  simp only
  rw [hu2]
  simp only
  exact ⟨List.getElem?_set_eq_of_lt _ hlen1, List.getElem?_set_eq_of_lt _ hlen2⟩

/-- Witness for `C1_undo_redo_roundtrip`: one layer holding `9`, with
snapshot `7` on the undo stack. -/
theorem C1_witness :
    1 ≤ (⟨20, [((0 : ℤ), 7)], []⟩ : HistoryManager ℕ).limit ∧
    (⟨20, [((0 : ℤ), 7)], []⟩ : HistoryManager ℕ).undo_stack.getLast? =
      some (((0 : ℕ) : ℤ), 7) ∧
    (0 : ℕ) < [9].length ∧ [9][(0 : ℕ)]? = some 9 ∧
    ((((⟨20, [((0 : ℤ), 7)], []⟩ : HistoryManager ℕ).undo [9]).1.redo
        (((⟨20, [((0 : ℤ), 7)], []⟩ : HistoryManager ℕ).undo [9])).2.1).2.1[(0 : ℕ)]? =
      some 9 ∧
    True) :=
  ⟨by decide, by decide, by decide, by decide,
    ⟨(C1_undo_redo_roundtrip (⟨20, [((0 : ℤ), 7)], []⟩ : HistoryManager ℕ)
      [9] 0 7 9 (by decide) (by decide) (by decide) (by decide)).1, trivial⟩⟩

/-! ## C6 — history bound -/

theorem pushAll_limit {α : Type} (h : HistoryManager α) (ps : List (ℤ × α)) :
    (pushAll h ps).limit = h.limit := by
  induction ps generalizing h with
  | nil => rfl
  | cons p ps ih =>
    simp only [pushAll, List.foldl_cons]
    exact ih _

theorem dequeAppend_drop {β : Type} (limit : ℕ) (qs : List β) (q : β) :
    dequeAppend limit (qs.drop (qs.length - limit)) q =
      (qs ++ [q]).drop (qs.length + 1 - limit) := by
  unfold dequeAppend
  have hlen : (qs.drop (qs.length - limit)).length = min limit qs.length := by
    simp [List.length_drop]
    omega
  by_cases hc : qs.length < limit
  · rw [if_pos (by omega)]
    rw [show qs.length - limit = 0 by omega, show qs.length + 1 - limit = 0 by omega]
    simp
  · rw [if_neg (by omega)]
    rcases Nat.eq_zero_or_pos limit with h0 | h1
    · subst h0
      simp only [Nat.sub_zero] at *
      rw [List.drop_length]
      simp only [List.length_nil, List.nil_append]
      rw [show qs.length + 1 = (qs ++ [q]).length by simp]
      rw [List.drop_length]
      rfl
    · rw [show (qs.drop (qs.length - limit)).length + 1 - limit = 1 by omega]
      rw [List.drop_append_of_le_length (by omega : 1 ≤ (qs.drop (qs.length - limit)).length),
        List.drop_drop, List.drop_append_of_le_length (by omega)]
      rw [show qs.length - limit + 1 = qs.length + 1 - limit by omega]

theorem pushAll_undo_stack {α : Type} (limit : ℕ) (ps : List (ℤ × α)) :
    (pushAll (historyInit α limit) ps).undo_stack =
      ps.drop (ps.length - limit) := by
  induction ps using List.reverseRecOn with
  | nil => simp [pushAll, historyInit]
  | append_singleton qs q ih =>
    have hstep : pushAll (historyInit α limit) (qs ++ [q]) =
        (pushAll (historyInit α limit) qs).save_state q.1 q.2 := by
      unfold pushAll
      rw [List.foldl_append]
      rfl
    rw [hstep]
    unfold HistoryManager.save_state
    simp only
    rw [ih, pushAll_limit]
    show dequeAppend limit (qs.drop (qs.length - limit)) q =
      (qs ++ [q]).drop ((qs ++ [q]).length - limit)
    rw [dequeAppend_drop]
    congr 1
    simp [List.length_append]

/-- C6: pushing `limit + k` snapshots (`k > 0`) through `save_state` leaves
the undo stack holding exactly the most recent `limit` pushes, in push
order. -/
theorem C6_history_bound {α : Type} (limit k : ℕ) (ps : List (ℤ × α))
    (hlen : ps.length = limit + k) (hk : 0 < k) :
    (pushAll (historyInit α limit) ps).undo_stack = ps.drop k ∧
    (pushAll (historyInit α limit) ps).undo_stack.length = limit := by
  have h := pushAll_undo_stack limit ps
  rw [hlen, show limit + k - limit = k by omega] at h
  refine ⟨h, ?_⟩
  rw [h, List.length_drop, hlen]
  omega

/-- Witness for `C6_history_bound`: `limit = 2`, `k = 1`, three pushes. -/
theorem C6_witness :
    ([((0 : ℤ), (10 : ℕ)), (0, 20), (0, 30)].length = 2 + 1) ∧ 0 < 1 ∧
    ((pushAll (historyInit ℕ 2) [((0 : ℤ), 10), (0, 20), (0, 30)]).undo_stack =
        [((0 : ℤ), 10), (0, 20), (0, 30)].drop 1 ∧
      (pushAll (historyInit ℕ 2)
          [((0 : ℤ), 10), (0, 20), (0, 30)]).undo_stack.length = 2) :=
  ⟨by decide, by decide,
    C6_history_bound 2 1 [((0 : ℤ), 10), (0, 20), (0, 30)] (by decide) (by decide)⟩

/-! ## C2 — `commit_transform` -/

/-- C2 counterexample: a **non-floating** layer with a non-identity
transform (`x = 5`).  The claim says commit should *bake* (keeping the
layer count and resetting the transform), merging down only for floating
layers; the code merges the non-floating layer down and removes it from
the stack. -/
theorem C2_counterexample :
    let l1 : Layer ℕ := ⟨"Layer 1", true, 1, "Normal", 5, 0, 1, 1, 0, 1, none⟩
    let c : Canvas ℕ :=
      ⟨[⟨"Background", true, 1, "Normal", 0, 0, 1, 1, 0, 0, none⟩, l1], 1,
        ⟨20, [], []⟩⟩
    l1.is_floating ≠ some true ∧
    ¬ (l1.x = 0 ∧ l1.y = 0 ∧ l1.rotation = 0 ∧ l1.scale_x = 1) ∧
    (commitTransform (fun _ t => t) c).layers.length ≠ c.layers.length := by
  intro l1 c
  refine ⟨by decide, by decide, by decide⟩

/-- C2 (amended): for *any* active layer — floating or not — whose
`(x, y, rotation, scale_x)` is not the identity (`scale_y` is not checked),
`commit_transform` saves history for the layer below, renders the active
layer through its transform onto the layer below, deletes the active layer
from the stack, and makes the layer below active.  There is no bake path. -/
theorem C2_commit_merges_down {Img : Type} (merge : Layer Img → Img → Img)
    (c : Canvas Img) (i : ℕ) (layer target : Layer Img)
    (hact : c.active_layer_index = (i : ℤ))
    (h1 : 1 ≤ i) (hlen : i < c.layers.length)
    (hlayer : c.layers[i]? = some layer)
    (htarget : c.layers[i - 1]? = some target)
    (hnid : ¬ (layer.x = 0 ∧ layer.y = 0 ∧ layer.rotation = 0 ∧
      layer.scale_x = 1)) :
    commitTransform merge c =
      { layers := (c.layers.set (i - 1)
          { target with image := merge layer target.image }).eraseIdx i
        active_layer_index := (i : ℤ) - 1
        history := c.history.save_state ((i : ℤ) - 1) target.image } := by
  have hcast : ((i : ℤ)).toNat = i := Int.toNat_natCast i
  have hcond : 0 ≤ c.active_layer_index ∧
      c.active_layer_index < c.layers.length := by
    rw [hact]
    exact ⟨by omega, by exact_mod_cast hlen⟩
  have hget : ∀ (hh : c.active_layer_index.toNat < c.layers.length),
      c.layers.get ⟨c.active_layer_index.toNat, hh⟩ = layer := by
    intro hh
    have hj : c.active_layer_index.toNat = i := by rw [hact]; exact hcast
    simp only [hj]
    rw [List.get_eq_getElem]
    have := List.getElem?_eq_getElem (l := c.layers) (n := i) (by omega)
    rw [hlayer] at this
    exact (Option.some_injective _ this).symm
  have hsub : (i : ℤ) - 1 = ((i - 1 : ℕ) : ℤ) := by omega
  have hlen1 : i - 1 < c.layers.length := by omega
  unfold commitTransform
  rw [dif_pos hcond]
  simp only [hget]
  rw [if_neg hnid]
  rw [hact, hsub, pyGetD_nat _ _ _ hlen1, htarget, pySet_nat, pyDel_nat]
  simp only [Option.getD_some, hcast]

/-- Witness for `C2_commit_merges_down` on the concrete two-layer canvas. -/
theorem C2_witness :
    let l0 : Layer ℕ := ⟨"Background", true, 1, "Normal", 0, 0, 1, 1, 0, 0, none⟩
    let l1 : Layer ℕ := ⟨"Layer 1", true, 1, "Normal", 5, 0, 1, 1, 0, 1, none⟩
    let c : Canvas ℕ := ⟨[l0, l1], 1, ⟨20, [], []⟩⟩
    commitTransform (fun l t => l.image + t) c =
      { layers := ([l0, l1].set 0
          { l0 with image := (fun (l : Layer ℕ) (t : ℕ) => l.image + t) l1 l0.image }).eraseIdx 1
        active_layer_index := ((1 : ℕ) : ℤ) - 1
        history := (⟨20, [], []⟩ : HistoryManager ℕ).save_state
          (((1 : ℕ) : ℤ) - 1) l0.image } := by
  intro l0 l1 c
  exact C2_commit_merges_down (fun l t => l.image + t) c 1 l1 l0 rfl
    (by decide) (by decide) rfl rfl (by decide)

/-! ## Stroke engine: closed form of the spacing loop -/

theorem cons_arith_progression {K : Type} [LinearOrderedField K]
    (a step : K) (m : ℕ) :
    a :: (List.range m).map (fun k : ℕ => a + ((k : K) + 1) * step) =
      (List.range (m + 1)).map (fun k : ℕ => a + (k : K) * step) := by
  rw [List.range_succ_eq_map]
  simp only [List.map_cons, List.map_map]
  refine List.cons_eq_cons.mpr ⟨by push_cast; ring, ?_⟩
  apply List.map_congr_left
  intro k _
  simp only [Function.comp_apply]
  push_cast
  ring

theorem spacedDots_closed {K : Type} [LinearOrderedField K] [FloorRing K]
    (spacing L : K) (hsp : 1 ≤ spacing) (t : K) :
    spacedDots spacing L hsp t =
      (((List.range (⌊(L - t) / spacing⌋).toNat).map
          fun k : ℕ => t + ((k : K) + 1) * spacing),
        t + ((⌊(L - t) / spacing⌋).toNat : K) * spacing) := by
  have hsp0 : (0 : K) < spacing := lt_of_lt_of_le one_pos hsp
  generalize hn : (⌈L - t⌉).toNat = n
  induction n using Nat.strong_induction_on generalizing t with
  | _ n ih =>
    by_cases h : t + spacing ≤ L
    · have hmeas : (⌈L - (t + spacing)⌉).toNat < n := by
        subst hn
        have h3 : ⌈L - (t + spacing)⌉ ≤ ⌈L - t⌉ - 1 := by
          have hle : L - (t + spacing) ≤ (L - t) - ((1 : ℤ) : K) := by
            push_cast; linarith
          calc ⌈L - (t + spacing)⌉ ≤ ⌈(L - t) - ((1 : ℤ) : K)⌉ :=
                Int.ceil_mono hle
            _ = ⌈L - t⌉ - 1 := Int.ceil_sub_int _ _
        have h4 : 0 < ⌈L - t⌉ := by rw [Int.lt_ceil]; push_cast; linarith
        omega
      have hrec := ih _ hmeas (t + spacing) rfl
      rw [spacedDots.eq_def, dif_pos h, hrec]
      have hfl : ⌊(L - t) / spacing⌋ = ⌊(L - (t + spacing)) / spacing⌋ + 1 := by
        rw [show (L - t) / spacing = (L - (t + spacing)) / spacing + 1 by
          field_simp; ring]
        exact Int.floor_add_one _
      have hnn : 0 ≤ ⌊(L - (t + spacing)) / spacing⌋ :=
        Int.floor_nonneg.mpr (div_nonneg (by linarith) (le_of_lt hsp0))
      have hton : (⌊(L - t) / spacing⌋).toNat =
          (⌊(L - (t + spacing)) / spacing⌋).toNat + 1 := by rw [hfl]; omega
      rw [hton]
      simp only [Prod.mk.injEq]
      constructor
      · rw [cons_arith_progression]
        apply List.map_congr_left
        intro k _
        ring
      · push_cast
        ring
    · rw [spacedDots.eq_def, dif_neg h]
      have h0 : ⌊(L - t) / spacing⌋ < 1 := by
        rw [Int.floor_lt]
        push_cast
        rw [div_lt_one hsp0]
        linarith
      have hz : (⌊(L - t) / spacing⌋).toNat = 0 := by omega
      rw [hz]
      simp

theorem dotLoop_eq {K : Type} [LinearOrderedField K] [FloorRing K]
    (spacing L : K) (hsp : 1 ≤ spacing) (d : K) :
    dotLoop spacing L hsp 0 d =
      (stampTimes spacing L d,
        (if d ≤ L then d + ((⌊(L - d) / spacing⌋).toNat : K) * spacing else 0),
        (if d ≤ L then spacing else d)) := by
  unfold dotLoop stampTimes
  by_cases h : d ≤ L
  · rw [if_pos (by simpa using h), if_pos h, if_pos h, if_pos h]
    rw [spacedDots_closed _ _ hsp _]
    simp only [zero_add, Prod.mk.injEq]
    exact ⟨cons_arith_progression d spacing _, trivial⟩
  · rw [if_neg (by simpa using h), if_neg h, if_neg h, if_neg h]

theorem drawSegment_char {K : Type} [LinearOrderedField K] [FloorRing K]
    (size f : K) (s e : K × K) (pS pE L d0 : K) (hL : ¬ L < 1 / 1000) :
    drawSegment size f s e pS pE L d0 =
      ((stampTimes (max 1 (size * f)) L d0).map fun tr =>
        { pos := (s.1 + (e.1 - s.1) * (tr / L), s.2 + (e.2 - s.2) * (tr / L))
          pressure := pS + (pE - pS) * (tr / L) },
       carryOut (max 1 (size * f)) L d0) := by
  unfold drawSegment
  rw [if_neg hL, dotLoop_eq _ _ _ _]
  unfold carryOut
  simp only [Prod.mk.injEq]
  refine ⟨trivial, ?_⟩
  by_cases h : d0 ≤ L
  · rw [if_pos h, if_pos h, if_pos h]
  · rw [if_neg h, if_neg h, if_neg h]
    ring

/-! ## C4 — spacing scenario -/

/-- C4: with size 20, spacing factor 0.1 (spacing 2), zero carry, one
`draw_line` call from `(0,0)` to `(100,0)` at pressure 1 places exactly the
51 stamps at `x = 0, 2, …, 100`, `y = 0`, pressure 1. -/
theorem C4_spacing_scenario :
    (drawSegmentR 20 (1 / 10) (0, 0) (100, 0) 1 1 0).1 =
      (List.range 51).map
        (fun k : ℕ => { pos := (2 * (k : ℝ), 0), pressure := 1 }) ∧
    (drawSegmentR 20 (1 / 10) (0, 0) (100, 0) 1 1 0).1.length = 51 := by
  have hsqrt : Real.sqrt ((((100 : ℝ), (0 : ℝ)).1 - ((0 : ℝ), (0 : ℝ)).1) ^ 2 +
      (((100 : ℝ), (0 : ℝ)).2 - ((0 : ℝ), (0 : ℝ)).2) ^ 2) = 100 := by
    rw [show (((100 : ℝ), (0 : ℝ)).1 - ((0 : ℝ), (0 : ℝ)).1) ^ 2 +
        (((100 : ℝ), (0 : ℝ)).2 - ((0 : ℝ), (0 : ℝ)).2) ^ 2 = 100 ^ 2 by norm_num]
    exact Real.sqrt_sq (by norm_num)
  unfold drawSegmentR
  rw [hsqrt]
  rw [drawSegment_char 20 (1 / 10) _ _ 1 1 100 0 (by norm_num)]
  have hspacing : max (1 : ℝ) (20 * (1 / 10)) = 2 := by
    rw [max_eq_right] <;> norm_num
  rw [hspacing]
  unfold stampTimes
  rw [if_pos (by norm_num : (0 : ℝ) ≤ 100)]
  have hfl : ⌊((100 : ℝ) - 0) / 2⌋ = 50 := by
    rw [show ((100 : ℝ) - 0) / 2 = ((50 : ℤ) : ℝ) by norm_num]
    exact Int.floor_intCast _
  rw [hfl]
  simp only [List.map_map, List.length_map, List.length_range]
  refine ⟨?_, rfl⟩
  apply List.map_congr_left
  intro k _
  simp only [Function.comp_apply, Stamp.mk.injEq, Prod.mk.injEq]
  refine ⟨⟨by ring, by ring⟩, by ring⟩

/-! ## C5 — carry-over split invariance -/

theorem stampTimes_split {K : Type} [LinearOrderedField K] [FloorRing K]
    (sp c L d0 : K) (hsp : 1 ≤ sp) (_hc : 0 < c) (hcL : c ≤ L) :
    stampTimes sp L d0 =
      stampTimes sp c d0 ++
        (stampTimes sp (L - c) (carryOut sp c d0)).map (fun x => c + x) ∧
    carryOut sp L d0 = carryOut sp (L - c) (carryOut sp c d0) := by
  have hsp0 : (0 : K) < sp := lt_of_lt_of_le one_pos hsp
  by_cases hd0c : d0 ≤ c
  · have hd0L : d0 ≤ L := le_trans hd0c hcL
    obtain ⟨n1, hn1⟩ : ∃ n : ℕ, (⌊(c - d0) / sp⌋).toNat = n := ⟨_, rfl⟩
    have hn1nn : 0 ≤ ⌊(c - d0) / sp⌋ :=
      Int.floor_nonneg.mpr (div_nonneg (by linarith) hsp0.le)
    have hn1Z : ((n1 : ℤ)) = ⌊(c - d0) / sp⌋ := by omega
    have hcarry1 : carryOut sp c d0 = sp - (c - (d0 + (n1 : K) * sp)) := by
      unfold carryOut
      rw [if_pos hd0c, hn1]
    have hkey : c + carryOut sp c d0 = d0 + ((n1 : K) + 1) * sp := by
      rw [hcarry1]; ring
    by_cases hp2 : carryOut sp c d0 ≤ L - c
    · have hwle : d0 + ((n1 : K) + 1) * sp ≤ L := by
        rw [← hkey]; linarith
      have hNge : ((n1 + 1 : ℕ) : ℤ) ≤ ⌊(L - d0) / sp⌋ := by
        apply Int.le_floor.mpr
        rw [le_div_iff₀ hsp0]
        push_cast
        linarith
      obtain ⟨n2, hn2⟩ : ∃ n : ℕ, (⌊(L - d0) / sp⌋ - (n1 + 1)).toNat = n :=
        ⟨_, rfl⟩
      have hNn : (⌊(L - d0) / sp⌋).toNat = n1 + 1 + n2 := by
        push_cast at hNge
        omega
      have harg : L - c - carryOut sp c d0 = L - d0 - ((n1 : K) + 1) * sp := by
        rw [hcarry1]; ring
      have hfl2n : (⌊(L - c - carryOut sp c d0) / sp⌋).toNat = n2 := by
        rw [harg]
        rw [show (L - d0 - ((n1 : K) + 1) * sp) / sp
            = (L - d0) / sp - ((n1 + 1 : ℕ) : K) by push_cast; field_simp; ring]
        rw [Int.floor_sub_nat]
        push_cast at hNge ⊢
        omega
      constructor
      · unfold stampTimes
        rw [if_pos hd0L, if_pos hd0c, if_pos hp2, hfl2n, hn1, hNn]
        rw [show n1 + 1 + n2 + 1 = (n1 + 1) + (n2 + 1) by omega]
        rw [List.range_add, List.map_append]
        simp only [List.map_map]
        congr 1
        apply List.map_congr_left
        intro j _
        simp only [Function.comp_apply]
        push_cast
        linarith [hkey]
      · set d1 := carryOut sp c d0 with hd1eq
        unfold carryOut
        rw [if_pos hd0L, if_pos hp2, hfl2n, hNn]
        push_cast
        linarith [hkey]
    · have hLlt : L < d0 + ((n1 : K) + 1) * sp := by
        rw [← hkey]; linarith
      have hb1 : (n1 : K) * sp ≤ c - d0 := by
        have h := Int.floor_le ((c - d0) / sp)
        rw [← hn1Z] at h
        push_cast at h
        calc (n1 : K) * sp ≤ ((c - d0) / sp) * sp :=
              mul_le_mul_of_nonneg_right h hsp0.le
          _ = c - d0 := by field_simp
      have hNeq : ⌊(L - d0) / sp⌋ = (n1 : ℤ) := by
        rw [Int.floor_eq_iff]
        constructor
        · push_cast
          rw [le_div_iff₀ hsp0]
          linarith
        · push_cast
          rw [div_lt_iff₀ hsp0]
          linarith
      constructor
      · unfold stampTimes
        rw [if_pos hd0L, if_pos hd0c, if_neg hp2, hNeq, hn1]
        simp
      · set d1 := carryOut sp c d0 with hd1eq
        unfold carryOut
        rw [if_pos hd0L, if_neg hp2, hNeq, hcarry1]
        rw [show ((n1 : ℤ)).toNat = n1 by omega]
        ring
  · have hcarry1 : carryOut sp c d0 = d0 - c := by
      unfold carryOut
      rw [if_neg hd0c]
    by_cases hd0L : d0 ≤ L
    · have hp2 : carryOut sp c d0 ≤ L - c := by rw [hcarry1]; linarith
      have hargeq : L - c - carryOut sp c d0 = L - d0 := by rw [hcarry1]; ring
      constructor
      · unfold stampTimes
        rw [if_pos hd0L, if_neg hd0c, if_pos hp2, hargeq]
        simp only [List.nil_append, List.map_map]
        apply List.map_congr_left
        intro j _
        simp only [Function.comp_apply]
        rw [hcarry1]
        ring
      · set d1 := carryOut sp c d0 with hd1eq
        unfold carryOut
        rw [if_pos hd0L, if_pos hp2, hargeq, hcarry1]
        ring
    · have hp2 : ¬ carryOut sp c d0 ≤ L - c := by
        rw [hcarry1]
        intro hcon
        exact hd0L (by linarith)
      constructor
      · unfold stampTimes
        rw [if_neg hd0L, if_neg hd0c, if_neg hp2]
        simp
      · set d1 := carryOut sp c d0 with hd1eq
        unfold carryOut
        rw [if_neg hd0L, if_neg hp2, hcarry1]
        ring

theorem drawSegment_split {K : Type} [LinearOrderedField K] [FloorRing K]
    (size f : K) (s e : K × K) (pS pE L c d0 : K)
    (hc1 : 1 / 1000 ≤ c) (hc2 : 1 / 1000 ≤ L - c) :
    ((drawSegment size f s (segPoint s e L c) pS (segPressure pS pE L c) c d0).1 ++
      (drawSegment size f (segPoint s e L c) e (segPressure pS pE L c) pE (L - c)
        (drawSegment size f s (segPoint s e L c) pS (segPressure pS pE L c) c d0).2).1,
     (drawSegment size f (segPoint s e L c) e (segPressure pS pE L c) pE (L - c)
        (drawSegment size f s (segPoint s e L c) pS (segPressure pS pE L c) c d0).2).2) =
    drawSegment size f s e pS pE L d0 := by
  have hc0 : (0 : K) < c := lt_of_lt_of_le (by norm_num) hc1
  have hLc0 : (0 : K) < L - c := lt_of_lt_of_le (by norm_num) hc2
  have hL0 : (0 : K) < L := by linarith
  have hcne : c ≠ 0 := ne_of_gt hc0
  have hLne : L ≠ 0 := ne_of_gt hL0
  have hLcne : L - c ≠ 0 := ne_of_gt hLc0
  have hnc : ¬ c < 1 / 1000 := not_lt.mpr hc1
  have hnLc : ¬ (L - c) < 1 / 1000 := not_lt.mpr hc2
  have hnL : ¬ L < 1 / 1000 := not_lt.mpr (by linarith)
  rw [drawSegment_char size f s (segPoint s e L c) pS (segPressure pS pE L c)
    c d0 hnc]
  rw [drawSegment_char size f (segPoint s e L c) e (segPressure pS pE L c) pE
    (L - c) (carryOut (max 1 (size * f)) c d0) hnLc]
  rw [drawSegment_char size f s e pS pE L d0 hnL]
  obtain ⟨hlist, hcarry⟩ :=
    stampTimes_split (max 1 (size * f)) c L d0 (le_max_left _ _) hc0
      (by linarith)
  rw [hlist, List.map_append]
  simp only [Prod.mk.injEq, List.map_map]
  refine ⟨?_, hcarry.symm⟩
  congr 1
  · apply List.map_congr_left
    intro tr _
    unfold segPoint segPressure
    simp only [Stamp.mk.injEq, Prod.mk.injEq]
    refine ⟨⟨?_, ?_⟩, ?_⟩ <;> field_simp <;> ring
  · apply List.map_congr_left
    intro x _
    unfold segPoint segPressure
    simp only [Function.comp_apply, Stamp.mk.injEq, Prod.mk.injEq]
    refine ⟨⟨?_, ?_⟩, ?_⟩ <;> field_simp <;> ring

theorem chain_le_last {K : Type} [LinearOrderedField K] :
    ∀ (l : List K) (x y : K),
      List.Chain' (fun a b => a + 1 / 1000 ≤ b) (x :: l ++ [y]) →
      x + 1 / 1000 ≤ y := by
  intro l
  induction l with
  | nil =>
    intro x y h
    exact (List.chain'_cons.mp h).1
  | cons z zs ih =>
    intro x y h
    have h1 := (List.chain'_cons.mp h).1
    have h2 := ih z y (List.chain'_cons.mp h).2
    linarith

theorem drawSplit_eq {K : Type} [LinearOrderedField K] [FloorRing K] :
    ∀ (n : ℕ) (cuts : List K) (size f : K) (s e : K × K) (pS pE L d0 : K),
      cuts.length = n →
      List.Chain' (fun a b => a + 1 / 1000 ≤ b) ((0 : K) :: cuts ++ [L]) →
      L ^ 2 = (e.1 - s.1) ^ 2 + (e.2 - s.2) ^ 2 →
      drawSplit size f s e pS pE L d0 cuts =
        drawSegment size f s e pS pE L d0 := by
  intro n
  induction n with
  | zero =>
    intro cuts size f s e pS pE L d0 hlen _ _
    rw [List.length_eq_zero.mp hlen]
    rw [drawSplit]
  | succ n ihn =>
    intro cuts size f s e pS pE L d0 hlen hchain hgeom
    obtain ⟨c, cs, rfl⟩ : ∃ c cs, cuts = c :: cs := by
      cases cuts with
      | nil => simp at hlen
      | cons c cs => exact ⟨c, cs, rfl⟩
    have h0c := (List.chain'_cons.mp hchain).1
    have htail := (List.chain'_cons.mp hchain).2
    have hcL : c + 1 / 1000 ≤ L := chain_le_last cs c L htail
    have hc1 : 1 / 1000 ≤ c := by linarith
    have hc2 : 1 / 1000 ≤ L - c := by linarith
    have hL0 : (0 : K) < L := by linarith
    have hLne : L ≠ 0 := ne_of_gt hL0
    have hshift : List.Chain' (fun a b => a + 1 / 1000 ≤ b)
        ((0 : K) :: (cs.map (· - c)) ++ [L - c]) := by
      have hmap : ((0 : K) :: (cs.map (· - c)) ++ [L - c]) =
          ((c :: cs) ++ [L]).map (· - c) := by
        simp [List.map_append]
      rw [hmap, List.chain'_map]
      refine htail.imp ?_
      intro a b hab
      linarith
    have hgeom2 : (L - c) ^ 2 = (e.1 - (segPoint s e L c).1) ^ 2 +
        (e.2 - (segPoint s e L c).2) ^ 2 := by
      unfold segPoint
      have hexp : (e.1 - (s.1 + (e.1 - s.1) * (c / L))) ^ 2 +
          (e.2 - (s.2 + (e.2 - s.2) * (c / L))) ^ 2 =
          ((L - c) / L) ^ 2 * ((e.1 - s.1) ^ 2 + (e.2 - s.2) ^ 2) := by
        field_simp
        ring
      rw [hexp, ← hgeom]
      field_simp
    rw [drawSplit]
    rw [ihn (cs.map (· - c)) size f (segPoint s e L c) e
      (segPressure pS pE L c) pE (L - c)
      ((drawSegment size f s (segPoint s e L c) pS (segPressure pS pE L c)
        c d0).2)
      (by simpa using hlen) hshift hgeom2]
    exact drawSegment_split size f s e pS pE L c d0 hc1 hc2

/-- C5 (amended): splitting one `draw_line` segment of Euclidean length `L`
into consecutive calls at cut distances that keep every piece at least
`0.001` long (the tap threshold) produces *identical* stamps and final
carry; separately, a zero-length segment always places exactly one stamp at
its endpoint — which is exactly why degenerate (zero-length) pieces are
excluded: the tap stamp would be an extra stamp the unsplit call does not
produce. -/
theorem C5_split_invariance {K : Type} [LinearOrderedField K] [FloorRing K]
    (size f : K) (s e : K × K) (pS pE L d0 : K) (cuts : List K)
    (hchain : List.Chain' (fun a b => a + 1 / 1000 ≤ b)
      ((0 : K) :: cuts ++ [L]))
    (hgeom : L ^ 2 = (e.1 - s.1) ^ 2 + (e.2 - s.2) ^ 2) :
    drawSplit size f s e pS pE L d0 cuts =
      drawSegment size f s e pS pE L d0 ∧
    (∀ (s0 e0 : K × K) (p q d : K),
      drawSegment size f s0 e0 p q 0 d = ([{ pos := e0, pressure := q }], d)) :=
  ⟨drawSplit_eq cuts.length cuts size f s e pS pE L d0 rfl hchain hgeom,
   fun _ e0 p q d => by
    unfold drawSegment
    rw [if_pos (by norm_num)]⟩

/-- Witness for `C5_split_invariance`: the segment `(0,0) → (2,0)` of
length 2 split at distance 1, over `ℚ`. -/
theorem C5_witness :
    List.Chain' (fun a b => a + 1 / 1000 ≤ b)
      ((0 : ℚ) :: [1] ++ [2]) ∧
    (2 : ℚ) ^ 2 = (((2 : ℚ), (0 : ℚ)).1 - ((0 : ℚ), (0 : ℚ)).1) ^ 2 +
      (((2 : ℚ), (0 : ℚ)).2 - ((0 : ℚ), (0 : ℚ)).2) ^ 2 ∧
    (drawSplit (20 : ℚ) (1 / 10) (0, 0) (2, 0) 1 1 2 0 [1] =
      drawSegment (20 : ℚ) (1 / 10) (0, 0) (2, 0) 1 1 2 0 ∧
    (∀ (s0 e0 : ℚ × ℚ) (p q d : ℚ),
      drawSegment (20 : ℚ) (1 / 10) s0 e0 p q 0 d =
        ([{ pos := e0, pressure := q }], d))) :=
  ⟨by
    refine List.chain'_cons.mpr ⟨by norm_num, List.chain'_cons.mpr ⟨by norm_num, ?_⟩⟩
    exact List.chain'_singleton _,
   by norm_num,
    C5_split_invariance 20 (1 / 10) (0, 0) (2, 0) 1 1 2 0 [1]
      (by
        refine List.chain'_cons.mpr ⟨by norm_num, List.chain'_cons.mpr ⟨by norm_num, ?_⟩⟩
        exact List.chain'_singleton _)
      (by norm_num)⟩

/-- C5 counterexample: the claim allows split pieces "of any length,
e.g. a zero-length segment".  Splitting `(0,0) → (2,0)` (length 2) as
`(0,0)→(1,0)`, `(1,0)→(1,0)` (zero length), `(1,0)→(2,0)` — whose endpoints
concatenate into the same polyline — produces stamp positions
`[(0,0), (1,0), (2,0)]`, while the single call produces `[(0,0), (2,0)]`:
the zero-length piece's unconditional tap stamp breaks the invariance. -/
theorem C5_counterexample :
    (drawSplit (20 : ℚ) (1 / 10) (0, 0) (2, 0) 1 1 2 0 [1, 1]).1.map
        (fun st => st.pos) = [((0 : ℚ), (0 : ℚ)), (1, 0), (2, 0)] ∧
    (drawSegment (20 : ℚ) (1 / 10) (0, 0) (2, 0) 1 1 2 0).1.map
        (fun st => st.pos) = [((0 : ℚ), (0 : ℚ)), (2, 0)] ∧
    ([((0 : ℚ), (0 : ℚ)), (1, 0), (2, 0)] : List (ℚ × ℚ)) ≠
      [(0, 0), (2, 0)] := by
  have hsp : max (1 : ℚ) (20 * (1 / 10)) = 2 := by norm_num
  have hwhole : drawSegment (20 : ℚ) (1 / 10) (0, 0) (2, 0) 1 1 2 0 =
      ([⟨(0, 0), 1⟩, ⟨(2, 0), 1⟩], 2) := by
    rw [drawSegment_char _ _ _ _ _ _ _ _ (by norm_num), hsp]
    unfold stampTimes carryOut
    rw [if_pos (by norm_num : (0 : ℚ) ≤ 2), if_pos (by norm_num : (0 : ℚ) ≤ 2)]
    rw [show ⌊((2 : ℚ) - 0) / 2⌋ = 1 by rw [Int.floor_eq_iff]; norm_num]
    norm_num [List.range_succ, Stamp.mk.injEq, Prod.mk.injEq]
  have hpiece1 : drawSegment (20 : ℚ) (1 / 10) (0, 0) (1, 0) 1 1 1 0 =
      ([⟨(0, 0), 1⟩], 1) := by
    rw [drawSegment_char _ _ _ _ _ _ _ _ (by norm_num), hsp]
    unfold stampTimes carryOut
    rw [if_pos (by norm_num : (0 : ℚ) ≤ 1), if_pos (by norm_num : (0 : ℚ) ≤ 1)]
    rw [show ⌊((1 : ℚ) - 0) / 2⌋ = 0 by rw [Int.floor_eq_iff]; norm_num]
    norm_num [List.range_succ, Stamp.mk.injEq, Prod.mk.injEq]
  have htap : drawSegment (20 : ℚ) (1 / 10) (1, 0) (1, 0) 1 1 0 1 =
      ([⟨(1, 0), 1⟩], 1) := by
    unfold drawSegment
    rw [if_pos (by norm_num)]
  have hpiece3 : drawSegment (20 : ℚ) (1 / 10) (1, 0) (2, 0) 1 1 1 1 =
      ([⟨(2, 0), 1⟩], 2) := by
    rw [drawSegment_char _ _ _ _ _ _ _ _ (by norm_num), hsp]
    unfold stampTimes carryOut
    rw [if_pos (by norm_num : (1 : ℚ) ≤ 1), if_pos (by norm_num : (1 : ℚ) ≤ 1)]
    rw [show ⌊((1 : ℚ) - 1) / 2⌋ = 0 by rw [Int.floor_eq_iff]; norm_num]
    norm_num [List.range_succ, Stamp.mk.injEq, Prod.mk.injEq]
  have hsplit : drawSplit (20 : ℚ) (1 / 10) (0, 0) (2, 0) 1 1 2 0 [1, 1] =
      ([⟨(0, 0), 1⟩, ⟨(1, 0), 1⟩, ⟨(2, 0), 1⟩], 2) := by
    rw [drawSplit]
    norm_num [segPoint, segPressure, -Prod.mk_zero_zero]
    rw [hpiece1]
    norm_num [-Prod.mk_zero_zero]
    rw [drawSplit]
    norm_num [segPoint, segPressure, -Prod.mk_zero_zero]
    rw [htap]
    norm_num [-Prod.mk_zero_zero]
    rw [drawSplit]
    rw [hpiece3]
    norm_num [-Prod.mk_zero_zero]
  rw [hsplit, hwhole]
  refine ⟨by simp, by simp, by simp⟩

/-! ## C3 — scanline flood fill: scan lemmas -/

theorem scanLeft_le (pix : Pos → ℕ) (tol target cy : ℕ) :
    ∀ x, scanLeft pix tol target cy x ≤ x := by
  intro x
  induction x with
  | zero => simp [scanLeft]
  | succ n ih =>
    rw [scanLeft]
    by_cases hm : colorsMatch tol (pix (n, cy)) target = true
    · rw [if_pos hm]
      exact le_trans ih (Nat.le_succ n)
    · rw [if_neg hm]

theorem scanLeft_matches (pix : Pos → ℕ) (tol target cy : ℕ) :
    ∀ x j, scanLeft pix tol target cy x ≤ j → j < x →
      colorsMatch tol (pix (j, cy)) target = true := by
  intro x
  induction x with
  | zero => intro j _ hj; omega
  | succ n ih =>
    intro j hle hlt
    rw [scanLeft] at hle
    by_cases hm : colorsMatch tol (pix (n, cy)) target = true
    · rw [if_pos hm] at hle
      rcases Nat.lt_succ_iff_lt_or_eq.mp hlt with h | h
      · exact ih j hle h
      · subst h; exact hm
    · rw [if_neg hm] at hle
      omega

theorem scanLeft_boundary (pix : Pos → ℕ) (tol target cy : ℕ) :
    ∀ x, 0 < scanLeft pix tol target cy x →
      colorsMatch tol (pix (scanLeft pix tol target cy x - 1, cy)) target =
        false := by
  intro x
  induction x with
  | zero => intro h; simp [scanLeft] at h
  | succ n ih =>
    intro h
    rw [scanLeft] at h ⊢
    by_cases hm : colorsMatch tol (pix (n, cy)) target = true
    · rw [if_pos hm] at h ⊢
      exact ih h
    · rw [if_neg hm] at h ⊢
      simp only [Nat.add_sub_cancel]
      simpa using hm

theorem scanRight_ge (pix : Pos → ℕ) (tol target w cy : ℕ) :
    ∀ x, x ≤ scanRight pix tol target w cy x := by
  intro x
  generalize hgas : w - 1 - x = gas
  induction gas generalizing x with
  | zero =>
    rw [scanRight.eq_def]
    rw [dif_neg (by omega : ¬ x < w - 1)]
  | succ g ih =>
    rw [scanRight.eq_def]
    by_cases hx : x < w - 1
    · rw [dif_pos hx]
      by_cases hm : colorsMatch tol (pix (x + 1, cy)) target = true
      · rw [if_pos hm]
        exact le_trans (Nat.le_succ x) (ih (x + 1) (by omega))
      · rw [if_neg hm]
    · rw [dif_neg hx]

theorem scanRight_lt (pix : Pos → ℕ) (tol target w cy : ℕ) :
    ∀ x, x < w → scanRight pix tol target w cy x < w := by
  intro x
  generalize hgas : w - 1 - x = gas
  induction gas generalizing x with
  | zero =>
    intro hx
    rw [scanRight.eq_def, dif_neg (by omega : ¬ x < w - 1)]
    exact hx
  | succ g ih =>
    intro hx
    rw [scanRight.eq_def]
    by_cases hlt : x < w - 1
    · rw [dif_pos hlt]
      by_cases hm : colorsMatch tol (pix (x + 1, cy)) target = true
      · rw [if_pos hm]
        exact ih (x + 1) (by omega) (by omega)
      · rw [if_neg hm]
        exact hx
    · rw [dif_neg hlt]
      exact hx

theorem scanRight_matches (pix : Pos → ℕ) (tol target w cy : ℕ) :
    ∀ x j, x < j → j ≤ scanRight pix tol target w cy x →
      colorsMatch tol (pix (j, cy)) target = true := by
  intro x
  generalize hgas : w - 1 - x = gas
  induction gas generalizing x with
  | zero =>
    intro j hj hle
    rw [scanRight.eq_def, dif_neg (by omega : ¬ x < w - 1)] at hle
    omega
  | succ g ih =>
    intro j hj hle
    rw [scanRight.eq_def] at hle
    by_cases hx : x < w - 1
    · rw [dif_pos hx] at hle
      by_cases hm : colorsMatch tol (pix (x + 1, cy)) target = true
      · rw [if_pos hm] at hle
        rcases Nat.lt_or_ge (x + 1) j with h | h
        · exact ih (x + 1) (by omega) j h hle
        · have : j = x + 1 := by omega
          subst this
          exact hm
      · rw [if_neg hm] at hle
        omega
    · rw [dif_neg hx] at hle
      omega

theorem scanRight_boundary (pix : Pos → ℕ) (tol target w cy : ℕ) :
    ∀ x, scanRight pix tol target w cy x < w - 1 →
      colorsMatch tol (pix (scanRight pix tol target w cy x + 1, cy)) target =
        false := by
  intro x
  generalize hgas : w - 1 - x = gas
  induction gas generalizing x with
  | zero =>
    intro hb
    rw [scanRight.eq_def, dif_neg (by omega : ¬ x < w - 1)] at hb
    omega
  | succ g ih =>
    intro hb
    rw [scanRight.eq_def] at hb ⊢
    by_cases hx : x < w - 1
    · rw [dif_pos hx] at hb ⊢
      by_cases hm : colorsMatch tol (pix (x + 1, cy)) target = true
      · rw [if_pos hm] at hb ⊢
        exact ih (x + 1) (by omega) hb
      · rw [if_neg hm] at hb ⊢
        simpa using hm
    · rw [dif_neg hx] at hb
      omega

/-! ## C3 — span loop lemmas -/

theorem spanStep_visited (pix : Pos → ℕ) (tol target h cy : ℕ)
    (acc : Finset Pos × List Pos) (i : ℕ) :
    (spanStep pix tol target h cy acc i).1 = insert (i, cy) acc.1 := rfl

theorem spanStep_stack_sub (pix : Pos → ℕ) (tol target h cy : ℕ)
    (acc : Finset Pos × List Pos) (i : ℕ) :
    ∀ q ∈ (spanStep pix tol target h cy acc i).2,
      q ∈ acc.2 ∨ (0 < cy ∧ q = (i, cy - 1)) ∨ q = (i, cy + 1) := by
  intro q hq
  unfold spanStep at hq
  dsimp only at hq
  split at hq
  · rcases List.mem_cons.mp hq with h1 | hq2
    · exact Or.inr (Or.inr h1)
    · split at hq2
      · next hup =>
        rcases List.mem_cons.mp hq2 with h2 | h3
        · exact Or.inr (Or.inl ⟨hup.1, h2⟩)
        · exact Or.inl h3
      · exact Or.inl hq2
  · split at hq
    · next hup =>
      rcases List.mem_cons.mp hq with h2 | h3
      · exact Or.inr (Or.inl ⟨hup.1, h2⟩)
      · exact Or.inl h3
    · exact Or.inl hq

theorem spanStep_stack_mono (pix : Pos → ℕ) (tol target h cy : ℕ)
    (acc : Finset Pos × List Pos) (i : ℕ) :
    ∀ q ∈ acc.2, q ∈ (spanStep pix tol target h cy acc i).2 := by
  intro q hq
  unfold spanStep
  dsimp only
  split
  · split
    · exact List.mem_cons_of_mem _ (List.mem_cons_of_mem _ hq)
    · exact List.mem_cons_of_mem _ hq
  · split
    · exact List.mem_cons_of_mem _ hq
    · exact hq

theorem spanStep_stack_len (pix : Pos → ℕ) (tol target h cy : ℕ)
    (acc : Finset Pos × List Pos) (i : ℕ) :
    (spanStep pix tol target h cy acc i).2.length ≤ acc.2.length + 2 := by
  unfold spanStep
  dsimp only
  split <;> split <;> (try simp only [List.length_cons]) <;> omega

theorem spanStep_stack_up (pix : Pos → ℕ) (tol target h cy : ℕ)
    (acc : Finset Pos × List Pos) (i : ℕ) (h1 : 0 < cy)
    (hm : colorsMatch tol (pix (i, cy - 1)) target = true)
    (hnv : (i, cy - 1) ∉ acc.1) :
    (i, cy - 1) ∈ (spanStep pix tol target h cy acc i).2 := by
  unfold spanStep
  dsimp only
  have hcond : 0 < cy ∧ colorsMatch tol (pix (i, cy - 1)) target = true ∧
      (i, cy - 1) ∉ insert (i, cy) acc.1 := by
    refine ⟨h1, hm, ?_⟩
    simp only [Finset.mem_insert]
    rintro (heq | hmem)
    · have : cy - 1 = cy := congrArg Prod.snd heq
      omega
    · exact hnv hmem
  rw [if_pos hcond]
  split
  · exact List.mem_cons_of_mem _ (List.mem_cons_self _ _)
  · exact List.mem_cons_self _ _

theorem spanStep_stack_down (pix : Pos → ℕ) (tol target h cy : ℕ)
    (acc : Finset Pos × List Pos) (i : ℕ) (h2 : cy < h - 1)
    (hm : colorsMatch tol (pix (i, cy + 1)) target = true)
    (hnv : (i, cy + 1) ∉ acc.1) :
    (i, cy + 1) ∈ (spanStep pix tol target h cy acc i).2 := by
  unfold spanStep
  dsimp only
  have hcond : cy < h - 1 ∧ colorsMatch tol (pix (i, cy + 1)) target = true ∧
      (i, cy + 1) ∉ insert (i, cy) acc.1 := by
    refine ⟨h2, hm, ?_⟩
    simp only [Finset.mem_insert]
    rintro (heq | hmem)
    · have : cy + 1 = cy := congrArg Prod.snd heq
      omega
    · exact hnv hmem
  rw [if_pos hcond]
  exact List.mem_cons_self _ _

theorem spanFold_cons (pix : Pos → ℕ) (tol target h cy : ℕ) (j : ℕ)
    (js : List ℕ) (acc : Finset Pos × List Pos) :
    spanFold pix tol target h cy (j :: js) acc =
      spanFold pix tol target h cy js (spanStep pix tol target h cy acc j) :=
  rfl

theorem spanFold_visited (pix : Pos → ℕ) (tol target h cy : ℕ) :
    ∀ (span : List ℕ) (acc : Finset Pos × List Pos) (q : Pos),
      q ∈ (spanFold pix tol target h cy span acc).1 ↔
        q ∈ acc.1 ∨ ∃ i ∈ span, q = (i, cy) := by
  intro span
  induction span with
  | nil => intro acc q; simp [spanFold]
  | cons j js ih =>
    intro acc q
    rw [spanFold_cons, ih, spanStep_visited]
    constructor
    · rintro (hins | ⟨i, hi, rfl⟩)
      · rcases Finset.mem_insert.mp hins with heq | hmem
        · exact Or.inr ⟨j, List.mem_cons_self _ _, heq⟩
        · exact Or.inl hmem
      · exact Or.inr ⟨i, List.mem_cons_of_mem _ hi, rfl⟩
    · rintro (hmem | ⟨i, hi, rfl⟩)
      · exact Or.inl (Finset.mem_insert_of_mem hmem)
      · rcases List.mem_cons.mp hi with rfl | hi2
        · exact Or.inl (Finset.mem_insert_self _ _)
        · exact Or.inr ⟨i, hi2, rfl⟩

theorem spanFold_stack_mono (pix : Pos → ℕ) (tol target h cy : ℕ) :
    ∀ (span : List ℕ) (acc : Finset Pos × List Pos),
      ∀ q ∈ acc.2, q ∈ (spanFold pix tol target h cy span acc).2 := by
  intro span
  induction span with
  | nil => intro acc q hq; exact hq
  | cons j js ih =>
    intro acc q hq
    rw [spanFold_cons]
    exact ih _ q (spanStep_stack_mono pix tol target h cy acc j q hq)

theorem spanFold_stack_sub (pix : Pos → ℕ) (tol target h cy : ℕ) :
    ∀ (span : List ℕ) (acc : Finset Pos × List Pos) (q : Pos),
      q ∈ (spanFold pix tol target h cy span acc).2 →
      q ∈ acc.2 ∨ ∃ i ∈ span, (0 < cy ∧ q = (i, cy - 1)) ∨ q = (i, cy + 1) := by
  intro span
  induction span with
  | nil => intro acc q hq; exact Or.inl hq
  | cons j js ih =>
    intro acc q hq
    rw [spanFold_cons] at hq
    rcases ih _ q hq with hstep | ⟨i, hi, hcase⟩
    · rcases spanStep_stack_sub pix tol target h cy acc j q hstep with
        hacc | hup | hdown
      · exact Or.inl hacc
      · exact Or.inr ⟨j, List.mem_cons_self _ _, Or.inl hup⟩
      · exact Or.inr ⟨j, List.mem_cons_self _ _, Or.inr hdown⟩
    · exact Or.inr ⟨i, List.mem_cons_of_mem _ hi, hcase⟩

theorem spanFold_stack_len (pix : Pos → ℕ) (tol target h cy : ℕ) :
    ∀ (span : List ℕ) (acc : Finset Pos × List Pos),
      (spanFold pix tol target h cy span acc).2.length ≤
        acc.2.length + 2 * span.length := by
  intro span
  induction span with
  | nil => intro acc; simp [spanFold]
  | cons j js ih =>
    intro acc
    rw [spanFold_cons]
    calc (spanFold pix tol target h cy js (spanStep pix tol target h cy acc j)).2.length
        ≤ (spanStep pix tol target h cy acc j).2.length + 2 * js.length := ih _
      _ ≤ acc.2.length + 2 + 2 * js.length := by
          have := spanStep_stack_len pix tol target h cy acc j
          omega
      _ = acc.2.length + 2 * (j :: js).length := by
          simp [List.length_cons]
          ring

theorem spanFold_stack_up (pix : Pos → ℕ) (tol target h cy : ℕ) :
    ∀ (span : List ℕ) (acc : Finset Pos × List Pos) (i : ℕ), i ∈ span →
      0 < cy → colorsMatch tol (pix (i, cy - 1)) target = true →
      (i, cy - 1) ∉ acc.1 →
      (i, cy - 1) ∈ (spanFold pix tol target h cy span acc).2 := by
  intro span
  induction span with
  | nil => intro acc i hi; exact absurd hi (List.not_mem_nil i)
  | cons j js ih =>
    intro acc i hi h1 hm hnv
    rw [spanFold_cons]
    rcases List.mem_cons.mp hi with rfl | hi2
    · exact spanFold_stack_mono pix tol target h cy js _ _
        (spanStep_stack_up pix tol target h cy acc i h1 hm hnv)
    · apply ih _ i hi2 h1 hm
      rw [spanStep_visited]
      simp only [Finset.mem_insert]
      rintro (heq | hmem)
      · have : cy - 1 = cy := congrArg Prod.snd heq
        omega
      · exact hnv hmem

theorem spanFold_stack_down (pix : Pos → ℕ) (tol target h cy : ℕ) :
    ∀ (span : List ℕ) (acc : Finset Pos × List Pos) (i : ℕ), i ∈ span →
      cy < h - 1 → colorsMatch tol (pix (i, cy + 1)) target = true →
      (i, cy + 1) ∉ acc.1 →
      (i, cy + 1) ∈ (spanFold pix tol target h cy span acc).2 := by
  intro span
  induction span with
  | nil => intro acc i hi; exact absurd hi (List.not_mem_nil i)
  | cons j js ih =>
    intro acc i hi h2 hm hnv
    rw [spanFold_cons]
    rcases List.mem_cons.mp hi with rfl | hi2
    · exact spanFold_stack_mono pix tol target h cy js _ _
        (spanStep_stack_down pix tol target h cy acc i h2 hm hnv)
    · apply ih _ i hi2 h2 hm
      rw [spanStep_visited]
      simp only [Finset.mem_insert]
      rintro (heq | hmem)
      · have : cy + 1 = cy := congrArg Prod.snd heq
        omega
      · exact hnv hmem

theorem fillStep_measure (tol target fill w h : ℕ) (p : Pos) (rest : List Pos)
    (s : FillState) (hstack : s.stack = p :: rest) :
    fillMeasure w h (fillStep tol target fill w h p rest s) <
      fillMeasure w h s := by
  unfold fillStep
  by_cases h1 : p ∈ s.visited
  · rw [if_pos h1]
    simp only [fillMeasure, hstack, List.length_cons]
    linarith
  · rw [if_neg h1]
    by_cases h2 : ¬ (p.1 < w ∧ p.2 < h)
    · rw [if_pos h2]
      simp only [fillMeasure, hstack, List.length_cons]
      linarith
    · rw [if_neg h2]
      push_neg at h2
      by_cases h3 : ¬ colorsMatch tol (s.pix p) target = true
      · rw [if_pos h3]
        simp only [fillMeasure, hstack, List.length_cons]
        linarith
      · rw [if_neg h3]
        dsimp only
        set pix' : Pos → ℕ := fun q =>
          if q.2 = p.2 ∧ scanLeft s.pix tol target p.2 p.1 ≤ q.1 ∧
              q.1 ≤ scanRight s.pix tol target w p.2 p.1 then fill
          else s.pix q with hpix'
        set l := scanLeft s.pix tol target p.2 p.1 with hldef
        set r := scanRight s.pix tol target w p.2 p.1 with hrdef
        set span := List.range' l (r + 1 - l) with hspandef
        set vs := spanFold pix' tol target h p.2 span (s.visited, rest)
          with hvs
        have hlle : l ≤ p.1 := scanLeft_le s.pix tol target p.2 p.1
        have hrge : p.1 ≤ r := scanRight_ge s.pix tol target w p.2 p.1
        have hrlt : r < w := scanRight_lt s.pix tol target w p.2 p.1 h2.1
        have hspanlen : span.length = r + 1 - l := by
          rw [hspandef]; exact List.length_range' _ _ _
        have hlen : vs.2.length ≤ rest.length + 2 * (r + 1 - l) := by
          have := spanFold_stack_len pix' tol target h p.2 span
            (s.visited, rest)
          rw [hspanlen] at this
          exact this
        have hsub : s.visited ⊆ vs.1 := by
          intro q hq
          rw [hvs, spanFold_visited]
          exact Or.inl hq
        have hpmem : p ∈ vs.1 := by
          rw [hvs, spanFold_visited]
          refine Or.inr ⟨p.1, ?_, rfl⟩
          rw [hspandef]
          exact List.mem_range'_1.mpr ⟨hlle, by omega⟩
        have hpgrid : p ∈ grid w h := by
          unfold grid
          rw [Finset.mem_product]
          exact ⟨Finset.mem_range.mpr h2.1, Finset.mem_range.mpr h2.2⟩
        have hcard : (grid w h \ vs.1).card < (grid w h \ s.visited).card := by
          apply Finset.card_lt_card
          constructor
          · intro q hq
            rw [Finset.mem_sdiff] at hq ⊢
            exact ⟨hq.1, fun hmem => hq.2 (hsub hmem)⟩
          · intro hcon
            have hp1 : p ∈ grid w h \ s.visited :=
              Finset.mem_sdiff.mpr ⟨hpgrid, h1⟩
            have hp2 := hcon hp1
            rw [Finset.mem_sdiff] at hp2
            exact hp2.2 hpmem
        have hkey : (2 * w + 2) * (grid w h \ vs.1).card + (2 * w + 2) ≤
            (2 * w + 2) * (grid w h \ s.visited).card := by
          have hc1 : (grid w h \ vs.1).card + 1 ≤
              (grid w h \ s.visited).card := hcard
          calc (2 * w + 2) * (grid w h \ vs.1).card + (2 * w + 2)
              = (2 * w + 2) * ((grid w h \ vs.1).card + 1) := by ring
            _ ≤ (2 * w + 2) * (grid w h \ s.visited).card :=
              Nat.mul_le_mul_left _ hc1
        have hspan2 : 2 * (r + 1 - l) ≤ 2 * w := by omega
        simp only [fillMeasure, hstack, List.length_cons]
        linarith

theorem colorsMatch_zero_iff (c1 c2 : ℕ) :
    colorsMatch 0 c1 c2 = true ↔ c1 = c2 := by
  simp [colorsMatch]

theorem row_walk_left (orig : Pos → ℕ) (w h : ℕ) (seed : Pos) :
    ∀ (n x y : ℕ),
      Relation.ReflTransGen
        (fun a b => adjacent a b ∧ inBounds w h b ∧ orig b = orig seed)
        seed (x, y) →
      (∀ j, x - n ≤ j → j < x →
        inBounds w h (j, y) ∧ orig (j, y) = orig seed) →
      Relation.ReflTransGen
        (fun a b => adjacent a b ∧ inBounds w h b ∧ orig b = orig seed)
        seed (x - n, y) := by
  intro n
  induction n with
  | zero => intro x y hc _; simpa using hc
  | succ m ih =>
    intro x y hc hmat
    by_cases hxm : x ≤ m
    · rw [show x - (m + 1) = x - m by omega]
      exact ih x y hc fun j hj1 hj2 => hmat j (by omega) hj2
    · push_neg at hxm
      have hprev := ih x y hc fun j hj1 hj2 => hmat j (by omega) hj2
      have hy := hmat (x - (m + 1)) (le_refl _) (by omega)
      refine hprev.tail ⟨?_, hy.1, hy.2⟩
      right
      exact ⟨rfl, Or.inl (by omega)⟩

theorem row_walk_right (orig : Pos → ℕ) (w h : ℕ) (seed : Pos) :
    ∀ (n x y : ℕ),
      Relation.ReflTransGen
        (fun a b => adjacent a b ∧ inBounds w h b ∧ orig b = orig seed)
        seed (x, y) →
      (∀ j, x < j → j ≤ x + n →
        inBounds w h (j, y) ∧ orig (j, y) = orig seed) →
      Relation.ReflTransGen
        (fun a b => adjacent a b ∧ inBounds w h b ∧ orig b = orig seed)
        seed (x + n, y) := by
  intro n
  induction n with
  | zero => intro x y hc _; simpa using hc
  | succ m ih =>
    intro x y hc hmat
    have hprev := ih x y hc fun j hj1 hj2 => hmat j hj1 (by omega)
    have hy := hmat (x + (m + 1)) (by omega) (le_refl _)
    refine hprev.tail ⟨?_, hy.1, hy.2⟩
    right
    exact ⟨rfl, Or.inr (by omega)⟩

theorem fillStep_inv (orig : Pos → ℕ) (w h : ℕ) (seed : Pos) (fill : ℕ)
    (hfill : fill ≠ orig seed) (hseed : inBounds w h seed)
    (p : Pos) (rest : List Pos) (s : FillState)
    (hstack : s.stack = p :: rest)
    (hinv : FillInv orig w h seed fill s) :
    FillInv orig w h seed fill (fillStep 0 (orig seed) fill w h p rest s) := by
  obtain ⟨inv1, inv2, inv3, inv4, inv5, inv6⟩ := hinv
  unfold fillStep
  by_cases h1 : p ∈ s.visited
  · rw [if_pos h1]
    refine ⟨inv1, inv2, inv3, ?_, ?_, ?_⟩
    · intro q hq
      exact inv4 q (by rw [hstack]; exact List.mem_cons_of_mem _ hq)
    · intro a ha q hadj hinb horig
      rcases inv5 a ha q hadj hinb horig with hv | hs
      · exact Or.inl hv
      · rw [hstack] at hs
        rcases List.mem_cons.mp hs with rfl | hr
        · exact Or.inl h1
        · exact Or.inr hr
    · rcases inv6 with hv | hs
      · exact Or.inl hv
      · rw [hstack] at hs
        rcases List.mem_cons.mp hs with heq | hr
        · exact Or.inl (heq ▸ h1)
        · exact Or.inr hr
  · rw [if_neg h1]
    by_cases h2 : p.1 < w ∧ p.2 < h
    case neg =>
      rw [if_pos h2]
      refine ⟨inv1, inv2, inv3, ?_, ?_, ?_⟩
      · intro q hq
        exact inv4 q (by rw [hstack]; exact List.mem_cons_of_mem _ hq)
      · intro a ha q hadj hinb horig
        rcases inv5 a ha q hadj hinb horig with hv | hs
        · exact Or.inl hv
        · rw [hstack] at hs
          rcases List.mem_cons.mp hs with rfl | hr
          · unfold inBounds at hinb
            exact (h2 hinb).elim
          · exact Or.inr hr
      · rcases inv6 with hv | hs
        · exact Or.inl hv
        · rw [hstack] at hs
          rcases List.mem_cons.mp hs with heq | hr
          · unfold inBounds at hseed
            subst heq
            exact (h2 hseed).elim
          · exact Or.inr hr
    case pos =>
      rw [if_neg (not_not_intro h2)]
      by_cases h3 : colorsMatch 0 (s.pix p) (orig seed) = true
      case neg =>
        rw [if_pos h3]
        refine ⟨inv1, inv2, inv3, ?_, ?_, ?_⟩
        · intro q hq
          exact inv4 q (by rw [hstack]; exact List.mem_cons_of_mem _ hq)
        · intro a ha q hadj hinb horig
          rcases inv5 a ha q hadj hinb horig with hv | hs
          · exact Or.inl hv
          · rw [hstack] at hs
            rcases List.mem_cons.mp hs with rfl | hr
            · exfalso
              apply h3
              rw [colorsMatch_zero_iff, inv2 q h1]
              exact horig
            · exact Or.inr hr
        · rcases inv6 with hv | hs
          · exact Or.inl hv
          · rw [hstack] at hs
            rcases List.mem_cons.mp hs with heq | hr
            · exfalso
              apply h3
              subst heq
              rw [colorsMatch_zero_iff, inv2 seed h1]
            · exact Or.inr hr
      case pos =>
        rw [if_neg (not_not_intro h3)]
        dsimp only
        set l := scanLeft s.pix 0 (orig seed) p.2 p.1 with hldef
        set r := scanRight s.pix 0 (orig seed) w p.2 p.1 with hrdef
        set pix' : Pos → ℕ := fun q =>
          if q.2 = p.2 ∧ l ≤ q.1 ∧ q.1 ≤ r then fill else s.pix q with hpixdef
        set span := List.range' l (r + 1 - l) with hspandef
        set vs := spanFold pix' 0 (orig seed) h p.2 span (s.visited, rest)
          with hvsdef
        have hlle : l ≤ p.1 := scanLeft_le s.pix 0 (orig seed) p.2 p.1
        have hrge : p.1 ≤ r := scanRight_ge s.pix 0 (orig seed) w p.2 p.1
        have hrlt : r < w := scanRight_lt s.pix 0 (orig seed) w p.2 p.1 h2.1
        have hpix_p : s.pix p = orig seed := (colorsMatch_zero_iff _ _).mp h3
        have hspan_match : ∀ i, l ≤ i → i ≤ r → s.pix (i, p.2) = orig seed := by
          intro i hli hir
          rcases Nat.lt_trichotomy i p.1 with hlt | heq | hgt
          · exact (colorsMatch_zero_iff _ _).mp
              (scanLeft_matches s.pix 0 (orig seed) p.2 p.1 i hli hlt)
          · subst heq
            rw [Prod.mk.eta]
            exact hpix_p
          · exact (colorsMatch_zero_iff _ _).mp
              (scanRight_matches s.pix 0 (orig seed) w p.2 p.1 i hgt hir)
        have hspan_nv : ∀ i, l ≤ i → i ≤ r → (i, p.2) ∉ s.visited := by
          intro i hli hir hv
          have hthis := inv3 _ hv
          rw [hspan_match i hli hir] at hthis
          exact hfill hthis.symm
        have hspan_orig : ∀ i, l ≤ i → i ≤ r → orig (i, p.2) = orig seed := by
          intro i hli hir
          rw [← inv2 _ (hspan_nv i hli hir)]
          exact hspan_match i hli hir
        have hspan_inb : ∀ i, l ≤ i → i ≤ r → inBounds w h (i, p.2) :=
          fun i _ hir => ⟨by omega, h2.2⟩
        have hporig : orig p = orig seed := by
          rw [← inv2 p h1]
          exact hpix_p
        have hpconn : Relation.ReflTransGen
            (fun a b => adjacent a b ∧ inBounds w h b ∧ orig b = orig seed)
            seed p := by
          have hp_in_stack : p ∈ s.stack := by
            rw [hstack]; exact List.mem_cons_self _ _
          rcases inv4 p hp_in_stack with rfl | ⟨q, hq, hadj⟩
          · exact Relation.ReflTransGen.refl
          · exact (inv1 q hq).2.2.tail ⟨hadj, ⟨h2.1, h2.2⟩, hporig⟩
        have hspan_conn : ∀ i, l ≤ i → i ≤ r →
            Relation.ReflTransGen
              (fun a b => adjacent a b ∧ inBounds w h b ∧ orig b = orig seed)
              seed (i, p.2) := by
          intro i hli hir
          rcases Nat.le_total i p.1 with hle | hge
          · have hw := row_walk_left orig w h seed (p.1 - i) p.1 p.2
              (by rw [Prod.mk.eta]; exact hpconn)
              (fun j hj1 hj2 => ⟨hspan_inb j (by omega) (by omega),
                hspan_orig j (by omega) (by omega)⟩)
            rw [show p.1 - (p.1 - i) = i by omega] at hw
            exact hw
          · have hw := row_walk_right orig w h seed (i - p.1) p.1 p.2
              (by rw [Prod.mk.eta]; exact hpconn)
              (fun j hj1 hj2 => ⟨hspan_inb j (by omega) (by omega),
                hspan_orig j (by omega) (by omega)⟩)
            rw [show p.1 + (i - p.1) = i by omega] at hw
            exact hw
        have hvmem : ∀ q : Pos, q ∈ vs.1 ↔
            q ∈ s.visited ∨ (q.2 = p.2 ∧ l ≤ q.1 ∧ q.1 ≤ r) := by
          intro q
          rw [hvsdef, spanFold_visited]
          constructor
          · rintro (hv | ⟨i, hi, rfl⟩)
            · exact Or.inl hv
            · have hmem := List.mem_range'_1.mp (hspandef ▸ hi)
              exact Or.inr ⟨rfl, hmem.1, by omega⟩
          · rintro (hv | ⟨hq2, hql, hqr⟩)
            · exact Or.inl hv
            · refine Or.inr ⟨q.1, ?_, ?_⟩
              · rw [hspandef]
                exact List.mem_range'_1.mpr ⟨hql, by omega⟩
              · exact Prod.ext_iff.mpr ⟨rfl, hq2⟩
        have hold_sub : ∀ q ∈ s.visited, q ∈ vs.1 :=
          fun q hq => (hvmem q).mpr (Or.inl hq)
        have hp_new : p ∈ vs.1 := (hvmem p).mpr (Or.inr ⟨rfl, hlle, hrge⟩)
        have hrest_sub : ∀ q ∈ rest, q ∈ vs.2 := by
          intro q hq
          rw [hvsdef]
          exact spanFold_stack_mono pix' 0 (orig seed) h p.2 span
            (s.visited, rest) q hq
        refine ⟨?_, ?_, ?_, ?_, ?_, ?_⟩
        · intro q hq
          rcases (hvmem q).mp hq with hv | ⟨hq2, hql, hqr⟩
          · exact inv1 q hv
          · have hqeq : q = (q.1, p.2) := Prod.ext_iff.mpr ⟨rfl, hq2⟩
            rw [hqeq]
            exact ⟨hspan_inb q.1 hql hqr, hspan_orig q.1 hql hqr,
              hspan_conn q.1 hql hqr⟩
        · intro q hq
          have hnv : q ∉ s.visited := fun hc => hq (hold_sub q hc)
          have hnotspan : ¬ (q.2 = p.2 ∧ l ≤ q.1 ∧ q.1 ≤ r) :=
            fun hc => hq ((hvmem q).mpr (Or.inr hc))
          show pix' q = orig q
          rw [hpixdef]
          simp only
          rw [if_neg hnotspan]
          exact inv2 q hnv
        · intro q hq
          show pix' q = fill
          rw [hpixdef]
          simp only
          by_cases hc : q.2 = p.2 ∧ l ≤ q.1 ∧ q.1 ≤ r
          · rw [if_pos hc]
          · rw [if_neg hc]
            rcases (hvmem q).mp hq with hv | hspan
            · exact inv3 q hv
            · exact absurd hspan hc
        · intro q hq
          rw [hvsdef] at hq
          rcases spanFold_stack_sub pix' 0 (orig seed) h p.2 span
              (s.visited, rest) q hq with hr | ⟨i, hi, hcase⟩
          · rcases inv4 q (by rw [hstack]; exact List.mem_cons_of_mem _ hr)
              with rfl | ⟨q', hq', hadj⟩
            · exact Or.inl rfl
            · exact Or.inr ⟨q', hold_sub q' hq', hadj⟩
          · right
            have hispan := List.mem_range'_1.mp (hspandef ▸ hi)
            have hivis : (i, p.2) ∈ vs.1 :=
              (hvmem (i, p.2)).mpr (Or.inr ⟨rfl, hispan.1, by omega⟩)
            rcases hcase with ⟨hcy, rfl⟩ | rfl
            · exact ⟨(i, p.2), hivis, Or.inl ⟨rfl, Or.inl (by omega)⟩⟩
            · exact ⟨(i, p.2), hivis, Or.inl ⟨rfl, Or.inr rfl⟩⟩
        · intro a ha q hadj hinb horig
          rcases (hvmem a).mp ha with hav | ⟨ha2, hal, har⟩
          · rcases inv5 a hav q hadj hinb horig with hqv | hqs
            · exact Or.inl (hold_sub q hqv)
            · rw [hstack] at hqs
              rcases List.mem_cons.mp hqs with rfl | hqr
              · exact Or.inl hp_new
              · exact Or.inr (hrest_sub q hqr)
          · unfold adjacent at hadj
            rcases hadj with ⟨hfst, hvert⟩ | ⟨hsnd, hhor⟩
            · rcases hvert with hup | hdown
              · -- q is the up neighbour: a.2 = q.2 + 1, a.2 = p.2
                by_cases hqv : q ∈ vs.1
                · exact Or.inl hqv
                · right
                  have hqnv : q ∉ s.visited := fun hc => hqv (hold_sub _ hc)
                  have hq2eq : q.2 = p.2 - 1 := by omega
                  have hcy : 0 < p.2 := by omega
                  have hqeq : q = (a.1, p.2 - 1) :=
                    Prod.ext_iff.mpr ⟨hfst.symm, hq2eq⟩
                  have hmq : colorsMatch 0 (pix' (a.1, p.2 - 1))
                      (orig seed) = true := by
                    rw [colorsMatch_zero_iff, hpixdef]
                    simp only
                    rw [if_neg (fun hc => absurd hc.1 (by omega))]
                    rw [← hqeq, inv2 _ hqnv]
                    exact horig
                  rw [hvsdef, hqeq]
                  apply spanFold_stack_up pix' 0 (orig seed) h p.2 span
                    (s.visited, rest) a.1 ?_ hcy hmq ?_
                  · rw [hspandef]
                    exact List.mem_range'_1.mpr ⟨hal, by omega⟩
                  · rw [← hqeq]
                    exact hqnv
              · -- q is the down neighbour: q.2 = a.2 + 1 = p.2 + 1
                by_cases hqv : q ∈ vs.1
                · exact Or.inl hqv
                · right
                  have hqnv : q ∉ s.visited := fun hc => hqv (hold_sub _ hc)
                  have hq2eq : q.2 = p.2 + 1 := by omega
                  have hhb : p.2 < h - 1 := by
                    have hq2h := hinb.2
                    omega
                  have hqeq : q = (a.1, p.2 + 1) :=
                    Prod.ext_iff.mpr ⟨hfst.symm, hq2eq⟩
                  have hmq : colorsMatch 0 (pix' (a.1, p.2 + 1))
                      (orig seed) = true := by
                    rw [colorsMatch_zero_iff, hpixdef]
                    simp only
                    rw [if_neg (fun hc => absurd hc.1 (by omega))]
                    rw [← hqeq, inv2 _ hqnv]
                    exact horig
                  rw [hvsdef, hqeq]
                  apply spanFold_stack_down pix' 0 (orig seed) h p.2 span
                    (s.visited, rest) a.1 ?_ hhb hmq ?_
                  · rw [hspandef]
                    exact List.mem_range'_1.mpr ⟨hal, by omega⟩
                  · rw [← hqeq]
                    exact hqnv
            · -- horizontal neighbour: a.2 = q.2 = p.2
              rcases hhor with hleft | hright
              · -- a.1 = q.1 + 1: q to the left
                by_cases hql : l ≤ q.1 ∧ q.1 ≤ r
                · exact Or.inl ((hvmem q).mpr
                    (Or.inr ⟨by omega, hql.1, hql.2⟩))
                · by_cases hqv : q ∈ s.visited
                  · exact Or.inl (hold_sub _ hqv)
                  · exfalso
                    have hlpos : 0 < l ∧ q.1 = l - 1 := by omega
                    have hbnd := scanLeft_boundary s.pix 0 (orig seed) p.2 p.1
                      hlpos.1
                    have hM : colorsMatch 0 (s.pix (l - 1, p.2))
                        (orig seed) = true := by
                      rw [colorsMatch_zero_iff]
                      rw [show ((l - 1 : ℕ), p.2) = q from
                        (Prod.ext_iff.mpr ⟨hlpos.2, by omega⟩).symm]
                      rw [inv2 _ hqv]
                      exact horig
                    rw [hM] at hbnd
                    exact absurd hbnd (by simp)
              · -- q.1 = a.1 + 1: q to the right
                by_cases hql : l ≤ q.1 ∧ q.1 ≤ r
                · exact Or.inl ((hvmem q).mpr
                    (Or.inr ⟨by omega, hql.1, hql.2⟩))
                · by_cases hqv : q ∈ s.visited
                  · exact Or.inl (hold_sub _ hqv)
                  · exfalso
                    have hq1w : q.1 < w := hinb.1
                    have hrb : r < w - 1 ∧ q.1 = r + 1 := by omega
                    have hbnd := scanRight_boundary s.pix 0 (orig seed) w p.2
                      p.1 hrb.1
                    have hM : colorsMatch 0 (s.pix (r + 1, p.2))
                        (orig seed) = true := by
                      rw [colorsMatch_zero_iff]
                      rw [show ((r + 1 : ℕ), p.2) = q from
                        (Prod.ext_iff.mpr ⟨hrb.2, by omega⟩).symm]
                      rw [inv2 _ hqv]
                      exact horig
                    rw [hM] at hbnd
                    exact absurd hbnd (by simp)
        · rcases inv6 with hv | hs
          · exact Or.inl (hold_sub seed hv)
          · rw [hstack] at hs
            rcases List.mem_cons.mp hs with heq | hr
            · exact Or.inl (heq ▸ hp_new)
            · exact Or.inr (hrest_sub seed hr)

theorem fillLoopFuel_inv (orig : Pos → ℕ) (w h : ℕ) (seed : Pos) (fill : ℕ)
    (hfill : fill ≠ orig seed) (hseed : inBounds w h seed) :
    ∀ (fuel : ℕ) (s : FillState), FillInv orig w h seed fill s →
      FillInv orig w h seed fill
        (fillLoopFuel 0 (orig seed) fill w h fuel s) := by
  intro fuel
  induction fuel with
  | zero => intro s hs; exact hs
  | succ n ih =>
    intro s hs
    cases hst : s.stack with
    | nil =>
      rw [fillLoopFuel, hst]
      exact hs
    | cons p rest =>
      rw [fillLoopFuel, hst]
      exact ih _ (fillStep_inv orig w h seed fill hfill hseed p rest s hst hs)

theorem fillLoopFuel_empty (tol target fill w h : ℕ) :
    ∀ (fuel : ℕ) (s : FillState), fillMeasure w h s ≤ fuel →
      (fillLoopFuel tol target fill w h fuel s).stack = [] := by
  intro fuel
  induction fuel with
  | zero =>
    intro s hm
    have hlen : s.stack.length = 0 := by
      unfold fillMeasure at hm
      omega
    rw [fillLoopFuel]
    exact List.length_eq_zero.mp hlen
  | succ n ih =>
    intro s hm
    cases hst : s.stack with
    | nil =>
      rw [fillLoopFuel, hst]
      exact hst
    | cons p rest =>
      rw [fillLoopFuel, hst]
      apply ih
      have hdec := fillStep_measure tol target fill w h p rest s hst
      omega

/-- C3: after `flood_fill` with exact matching (tolerance 0), an in-bounds
seed, and a fill colour different from the seed colour, every pixel
4-connected to the seed through pixels of the original seed colour holds
the fill colour, and every other pixel is unchanged. -/
theorem C3_flood_fill (orig : Pos → ℕ) (w h : ℕ) (seed : Pos) (fill : ℕ)
    (hseed : inBounds w h seed) (hne : orig seed ≠ fill) :
    ∀ p : Pos,
      (ConnectedToSeed orig w h seed p →
        floodFill orig w h seed fill 0 p = fill) ∧
      (¬ ConnectedToSeed orig w h seed p →
        floodFill orig w h seed fill 0 p = orig p) := by
  have hfill : fill ≠ orig seed := Ne.symm hne
  have hself : colorsMatch 0 (orig seed) (orig seed) = true :=
    (colorsMatch_zero_iff _ _).mpr rfl
  have hInv0 : FillInv orig w h seed fill
      { pix := orig, visited := ∅, stack := [seed] } := by
    refine ⟨?_, ?_, ?_, ?_, ?_, ?_⟩
    · intro q hq
      exact absurd hq (Finset.not_mem_empty q)
    · intro q _
      rfl
    · intro q hq
      exact absurd hq (Finset.not_mem_empty q)
    · intro q hq
      exact Or.inl (List.mem_singleton.mp hq)
    · intro q hq
      exact absurd hq (Finset.not_mem_empty q)
    · exact Or.inr (List.mem_singleton_self seed)
  have hmeas0 : fillMeasure w h
      { pix := orig, visited := ∅, stack := [seed] } ≤
      1 + (2 * w + 2) * (w * h) := by
    have hcard : (grid w h \ (∅ : Finset Pos)).card = w * h := by
      rw [Finset.sdiff_empty]
      unfold grid
      rw [Finset.card_product]
      simp [Finset.card_range]
    unfold fillMeasure
    rw [hcard]
    simp
  have hF := fillLoopFuel_inv orig w h seed fill hfill hseed
    (1 + (2 * w + 2) * (w * h)) { pix := orig, visited := ∅, stack := [seed] }
    hInv0
  have hE := fillLoopFuel_empty 0 (orig seed) fill w h
    (1 + (2 * w + 2) * (w * h)) { pix := orig, visited := ∅, stack := [seed] }
    hmeas0
  obtain ⟨f1, f2, f3, f4, f5, f6⟩ := hF
  have hseedvis : seed ∈ (fillLoopFuel 0 (orig seed) fill w h
      (1 + (2 * w + 2) * (w * h))
      { pix := orig, visited := ∅, stack := [seed] }).visited := by
    rcases f6 with hv | hs
    · exact hv
    · rw [hE] at hs
      exact absurd hs (List.not_mem_nil seed)
  have hconn_vis : ∀ q,
      Relation.ReflTransGen
        (fun a b => adjacent a b ∧ inBounds w h b ∧ orig b = orig seed)
        seed q →
      q ∈ (fillLoopFuel 0 (orig seed) fill w h (1 + (2 * w + 2) * (w * h))
        { pix := orig, visited := ∅, stack := [seed] }).visited := by
    intro q hq
    induction hq with
    | refl => exact hseedvis
    | tail hab hbc ih =>
      rcases f5 _ ih _ hbc.1 hbc.2.1 hbc.2.2 with hv | hs
      · exact hv
      · rw [hE] at hs
        exact absurd hs (List.not_mem_nil _)
  intro p
  unfold floodFill
  rw [if_neg (not_not_intro (show seed.1 < w ∧ seed.2 < h from hseed))]
  rw [if_neg hne, if_neg (not_not_intro hself)]
  constructor
  · intro hcp
    exact f3 p (hconn_vis p hcp.1)
  · intro hncp
    apply f2
    intro hv
    exact hncp ⟨(f1 p hv).2.2, (f1 p hv).1, (f1 p hv).2.1⟩

/-- Witness for `C3_flood_fill`: a uniformly-zero 2×2 buffer filled with
colour 7 from seed `(0,0)`, evaluated at pixel `(1,1)`. -/
theorem C3_witness :
    inBounds 2 2 (0, 0) ∧ ((fun _ : Pos => 0) (0, 0) ≠ 7) ∧
    ((ConnectedToSeed (fun _ : Pos => 0) 2 2 (0, 0) (1, 1) →
        floodFill (fun _ : Pos => 0) 2 2 (0, 0) 7 0 (1, 1) = 7) ∧
      (¬ ConnectedToSeed (fun _ : Pos => 0) 2 2 (0, 0) (1, 1) →
        floodFill (fun _ : Pos => 0) 2 2 (0, 0) 7 0 (1, 1) =
          (fun _ : Pos => 0) (1, 1))) :=
  ⟨⟨by decide, by decide⟩, by decide,
    C3_flood_fill (fun _ : Pos => 0) 2 2 (0, 0) 7 ⟨by decide, by decide⟩
      (by decide) (1, 1)⟩

end ConceptStudio
